import Mathlib

/-!
# fokv/cron: the dynamic job registry

A shallow embedding of `scheduler.go`.  The scheduler is a record of its name,
the schedule engine and the registry map; every method of `*DynamicScheduler`
is a pure function from the state before the call to the state after it,
paired with the value the method returns.  The mutex is not modelled: each
method holds it for its whole body, so calls are serialised and a run of the
program is a list of calls.

* `time.Now()` is an argument `now` of the operation that reads the clock.
* `func()` values are elements of an arbitrary type `W`; `nil` is `none`.
* The expression parser of the engine is an argument `valid : String → Bool`
  (`true` when the engine accepts the expression).
* The order in which a `range` visits the registry map is an argument `rank`
  of `ListFuncs` and `MarshalJSON`; every order arises from some `rank`.
* JSON is modelled twice: the document that is encoded (its members and
  values) and the text `encoding/json` writes for it, with a reader of that
  text.
-/

namespace Cron

set_option maxRecDepth 20000

/-! ## Go maps with string keys -/

/-- Lookup `m[key]`: the value stored under `key`, `none` when the key is absent. -/
def mapGet {V : Type} : List (String × V) → String → Option V
  | [], _ => none
  | (k, v) :: rest, key => if k = key then some v else mapGet rest key

/-- Assignment `m[key] = v`: replaces the value of a present key, adds an absent one. -/
def mapSet {V : Type} : List (String × V) → String → V → List (String × V)
  | [], key, v => [(key, v)]
  | (k, v0) :: rest, key, v =>
    if k = key then (k, v) :: rest else (k, v0) :: mapSet rest key v

/-! ## Data model -/

/-- The struct `NamedFunc` of `scheduler.go`. -/
structure NamedFunc (W : Type) where
  ID : Int
  Name : String
  Description : String
  Spec : String
  Func : Option W
  Timeout : Int
  UpdatedAt : Int
deriving DecidableEq, Repr

/-- The zero value of `NamedFunc`. -/
def NamedFunc.zero {W : Type} : NamedFunc W :=
  { ID := 0, Name := "", Description := "", Spec := "", Func := none, Timeout := 0,
    UpdatedAt := 0 }

/-- The closure returned by `wrapFunction`: it captures `fn` and `timeout`. -/
structure Wrapped (W : Type) where
  fn : Option W
  timeout : Int
deriving DecidableEq, Repr

/-- The closure that `wrapFunction` builds around `fn` and `timeout`. -/
def wrapFunction {W : Type} (fn : Option W) (timeout : Int) : Wrapped W :=
  { fn := fn, timeout := timeout }

/-- One registration of the schedule engine: its handle, the expression it was
installed under and the callback it fires. -/
structure Entry (W : Type) where
  ID : Int
  Spec : String
  Job : Wrapped W
deriving DecidableEq, Repr

/-- A call that the registry makes on the schedule engine. -/
inductive EngineCall where
  /-- A call `AddFunc(spec, callback)`. -/
  | add (spec : String)
  /-- A call `Remove(handle)`. -/
  | remove (id : Int)
deriving DecidableEq, Repr

/-- Modelled from the spec: the Schedule Engine (`github.com/robfig/cron/v3`, an
external collaborator whose code is not part of the repository).  It keeps the
live registrations and issues one handle per registration from a counter.
The field `calls` records every call it has received, oldest first, so that
"the engine receives no call" can be stated. -/
structure Engine (W : Type) where
  nextID : Int
  entries : List (Entry W)
  calls : List EngineCall
deriving DecidableEq, Repr

/-- Modelled from the spec: `cron.New`, an engine without registrations. -/
def Engine.new {W : Type} : Engine W :=
  { nextID := 0, entries := [], calls := [] }

/-- Modelled from the spec: `Add(spec, callback) -> (handle, error InvalidSpec)`.
A rejected expression leaves the engine as it was and gives no handle; an
accepted one is installed under the next handle of the counter. -/
def Engine.AddFunc {W : Type} (valid : String → Bool) (c : Engine W) (spec : String)
    (cmd : Wrapped W) : Engine W × Option Int :=
  if valid spec then
    let id := c.nextID + 1
    ({ nextID := id, entries := c.entries ++ [{ ID := id, Spec := spec, Job := cmd }],
       calls := c.calls ++ [EngineCall.add spec] },
      some id)
  else ({ c with calls := c.calls ++ [EngineCall.add spec] }, none)

/-- Modelled from the spec: `Remove(handle)` drops the registration with that
handle; an unknown handle is ignored. -/
def Engine.Remove {W : Type} (c : Engine W) (id : Int) : Engine W :=
  { c with
    entries := c.entries.filter (fun e => decide (e.ID ≠ id)),
    calls := c.calls ++ [EngineCall.remove id] }

/-- The struct `DynamicScheduler` of `scheduler.go`, without its mutex. -/
structure DynamicScheduler (W : Type) where
  Name : String
  Cron : Engine W
  Funcs : List (String × NamedFunc W)
deriving DecidableEq, Repr

/-- The errors the registry returns, one per `fmt.Errorf` of `scheduler.go`. -/
inductive SchedError where
  /-- The error `function %q already registered`. -/
  | alreadyRegistered (name : String)
  /-- The error `invalid cron spec: %w`. -/
  | invalidCronSpec
  /-- The error `invalid new spec: %w`. -/
  | invalidNewSpec
  /-- The error `function %q not found`. -/
  | notFound (name : String)
deriving DecidableEq, Repr

/-! ## Operations -/

/-- The constructor `NewDynamicScheduler`. -/
def NewDynamicScheduler {W : Type} (name : String) : DynamicScheduler W :=
  { Name := name, Cron := Engine.new, Funcs := [] }

/-- The method `RegisterFunc`: the state after the call and the returned error. -/
def RegisterFunc {W : Type} (valid : String → Bool) (now : Int) (d : DynamicScheduler W)
    (nf : NamedFunc W) : DynamicScheduler W × Option SchedError :=
  match mapGet d.Funcs nf.Name with
  | some _ => (d, some (SchedError.alreadyRegistered nf.Name))
  | none =>
    let wrapped := wrapFunction nf.Func nf.Timeout
    match Engine.AddFunc valid d.Cron nf.Spec wrapped with
    | (c, none) => ({ d with Cron := c }, some SchedError.invalidCronSpec)
    | (c, some entryID) =>
      let nf1 := { nf with ID := entryID, UpdatedAt := now }
      ({ d with Cron := c, Funcs := mapSet d.Funcs nf.Name nf1 }, none)

/-- The method `UpdateSpec`: the state after the call and the returned error. -/
def UpdateSpec {W : Type} (valid : String → Bool) (now : Int) (d : DynamicScheduler W)
    (name newSpec : String) : DynamicScheduler W × Option SchedError :=
  match mapGet d.Funcs name with
  | none => (d, some (SchedError.notFound name))
  | some nf =>
    let c1 := Engine.Remove d.Cron nf.ID
    let wrapped := wrapFunction nf.Func nf.Timeout
    match Engine.AddFunc valid c1 newSpec wrapped with
    | (c2, none) => ({ d with Cron := c2 }, some SchedError.invalidNewSpec)
    | (c2, some entryID) =>
      let nf1 := { nf with ID := entryID, Spec := newSpec, UpdatedAt := now }
      ({ d with Cron := c2, Funcs := mapSet d.Funcs name nf1 }, none)

/-- The method `GetFunc`: the stored value and `true`, or the zero value and `false`. -/
def GetFunc {W : Type} (d : DynamicScheduler W) (name : String) : NamedFunc W × Bool :=
  match mapGet d.Funcs name with
  | some nf => (nf, true)
  | none => (NamedFunc.zero, false)

/-- The method `ListFuncs`: the values of the registry map, collected by a
`range` over the map.  Go fixes no order for that loop: the order of one call
is given by `rank`, an arbitrary ranking of the keys that stands for the
choice of the runtime (keys of smaller rank are visited first). -/
def ListFuncs {W : Type} (rank : String → Nat) (d : DynamicScheduler W) : List (NamedFunc W) :=
  (List.insertionSort (fun a b => rank a.1 ≤ rank b.1) d.Funcs).map Prod.snd

/-! ## Runs: sequences of mutating calls -/

/-- One mutating call on the scheduler, with the clock reading it observes. -/
inductive Op (W : Type) where
  /-- A call `RegisterFunc(nf)`. -/
  | register (now : Int) (nf : NamedFunc W)
  /-- A call `UpdateSpec(name, newSpec)`. -/
  | update (now : Int) (name newSpec : String)
deriving DecidableEq, Repr

/-- Performs one call. -/
def Op.apply {W : Type} (valid : String → Bool) (d : DynamicScheduler W) :
    Op W → DynamicScheduler W × Option SchedError
  | Op.register now nf => RegisterFunc valid now d nf
  | Op.update now name newSpec => UpdateSpec valid now d name newSpec

/-- Performs the calls of `ops` one after the other, starting in `d`. -/
def runOps {W : Type} (valid : String → Bool) :
    List (Op W) → DynamicScheduler W → DynamicScheduler W
  | [], d => d
  | op :: rest, d => runOps valid rest (Op.apply valid d op).1

/-- The names whose `RegisterFunc` call returned no error during the run of
`ops` from `d`, in the order of the calls. -/
def registeredNames {W : Type} (valid : String → Bool) :
    List (Op W) → DynamicScheduler W → List String
  | [], _ => []
  | Op.register now nf :: rest, d =>
    match RegisterFunc valid now d nf with
    | (d1, none) => nf.Name :: registeredNames valid rest d1
    | (d1, some _) => registeredNames valid rest d1
  | Op.update now name newSpec :: rest, d =>
    registeredNames valid rest (UpdateSpec valid now d name newSpec).1

/-- The handles of the registrations that are live in the engine. -/
def activeHandles {W : Type} (c : Engine W) : List Int :=
  c.entries.map Entry.ID

/-- A sample parser for concrete runs: it rejects exactly `invalid-spec`. -/
def sampleValid (spec : String) : Bool :=
  spec != "invalid-spec"

/-- A sample job for concrete runs. -/
def sampleJob : NamedFunc Nat :=
  { ID := 0, Name := "test_func", Description := "", Spec := "* * * * * *",
    Func := some 7, Timeout := 0, UpdatedAt := 0 }

/-- A scheduler named `test` in which `sampleJob` was registered at time 10. -/
def sampleRegistered : DynamicScheduler Nat :=
  (RegisterFunc sampleValid 10 (NewDynamicScheduler "test") sampleJob).1

/-- The registrations of the engine that are live under the handle `id`. -/
def registrationsOf {W : Type} (c : Engine W) (id : Int) : List (Entry W) :=
  c.entries.filter (fun e => decide (e.ID = id))

/-- The job `nf` has exactly one live registration under its stored handle, and
that registration was installed under its stored spec. -/
def jobScheduled {W : Type} (c : Engine W) (nf : NamedFunc W) : Bool :=
  match registrationsOf c nf.ID with
  | [e] => decide (e.Spec = nf.Spec)
  | _ => false

/-- Every job of the registry satisfies `jobScheduled`. -/
def allScheduled {W : Type} (d : DynamicScheduler W) : Bool :=
  d.Funcs.all (fun p => jobScheduled d.Cron p.2)

/-- No handle stored in the registry or live in the engine is beyond the
counter of the engine. -/
def HandlesBounded {W : Type} (d : DynamicScheduler W) : Prop :=
  (∀ p ∈ d.Funcs, p.2.ID ≤ d.Cron.nextID) ∧ (∀ e ∈ d.Cron.entries, e.ID ≤ d.Cron.nextID)

/-- The fields of a job that a reschedule does not touch agree in `a` and `b`. -/
def sameIdentity {W : Type} (a b : NamedFunc W) : Prop :=
  a.Name = b.Name ∧ a.Description = b.Description ∧ a.Timeout = b.Timeout ∧ a.Func = b.Func

/-- The keys of a map, in the order of the model. -/
def mapKeys {V : Type} (m : List (String × V)) : List String :=
  m.map Prod.fst

/-- Every entry of the registry map is stored under its own name. -/
def KeyedByName {W : Type} (d : DynamicScheduler W) : Prop :=
  ∀ p ∈ d.Funcs, p.2.Name = p.1

/-- Two names of the registry with the same stored handle are the same name. -/
def DistinctHandles {W : Type} (d : DynamicScheduler W) : Prop :=
  ∀ k1 k2 nf1 nf2, mapGet d.Funcs k1 = some nf1 → mapGet d.Funcs k2 = some nf2 →
    nf1.ID = nf2.ID → k1 = k2

/-- Every live registration of the engine is under the stored handle of a job
of the registry. -/
def ActiveOwned {W : Type} (d : DynamicScheduler W) : Prop :=
  ∀ e ∈ d.Cron.entries, ∃ k nf, mapGet d.Funcs k = some nf ∧ nf.ID = e.ID

/-- The invariant that ties the engine to the registry: handles are bounded by
the counter, distinct jobs hold distinct handles, every live registration
belongs to a job, and no handle is live twice. -/
def EngineInv {W : Type} (d : DynamicScheduler W) : Prop :=
  HandlesBounded d ∧ DistinctHandles d ∧ ActiveOwned d ∧ (activeHandles d.Cron).Nodup

/-- The call `op` is not an `UpdateSpec` of the job `name`. -/
def Op.notUpdateOf {W : Type} (name : String) : Op W → Bool
  | Op.register _ _ => true
  | Op.update _ target _ => decide (target ≠ name)

/-- A run with two jobs, a rejected update of the first and an accepted update
of the second. -/
def sampleOps : List (Op Nat) :=
  [Op.register 10 sampleJob,
   Op.register 11 { sampleJob with Name := "other", Spec := "@every 5s" },
   Op.update 12 "test_func" "invalid-spec",
   Op.update 13 "other" "@every 1s"]

/-- The scheduler named `test` after `sampleOps`. -/
def sampleRun : DynamicScheduler Nat :=
  runOps sampleValid sampleOps (NewDynamicScheduler "test")

/-! ## Firing the callback of `wrapFunction`

The work runs in a world of type `σ`; `run w s` is the world in which the work
`w`, started in `s`, returns, and `none` when it never returns. -/

/-- The call `fn()` on the current task: the world in which it returns, `none`
when it does not return (the work never ends, or `fn` is nil and the call
panics). -/
def callWork {σ W : Type} (run : W → σ → Option σ) (fn : Option W) (s : σ) : Option σ :=
  match fn with
  | none => none
  | some w => run w s

/-- One firing of the closure that `wrapFunction` returns, by the branch of its
body that is taken. -/
inductive Firing (σ W : Type) where
  /-- The branch `timeout <= 0`: `fn(); return` on the firing task, with the
  world in which the closure returns. -/
  | direct (result : Option σ)
  /-- The branch `timeout > 0`: the work is started in a goroutine of its own
  and the firing task waits in `select` for `done` or for `ctx.Done()`. -/
  | bounded (fn : Option W) (timeout : Int)

/-- The body of the closure that `wrapFunction` returns, fired in world `s`. -/
def Wrapped.fire {σ W : Type} (run : W → σ → Option σ) (w : Wrapped W) (s : σ) : Firing σ W :=
  if w.timeout ≤ 0 then Firing.direct (callWork run w.fn s)
  else Firing.bounded w.fn w.timeout

/-- A world that counts the calls of the work next to a world `σ`: the work
`w` takes `(s, n)` to `(run w s, n + 1)`. -/
def countingRun {σ W : Type} (run : W → σ → Option σ) (w : W) (s : σ × Nat) : Option (σ × Nat) :=
  (run w s.1).map (fun s1 => (s1, s.2 + 1))

/-! ## JSON documents

A document that `encoding/json` writes is modelled by its structure: the
members of the top-level object, in the order they are written.  The text
written for a document is in the section on JSON text below. -/

/-- A JSON number, a JSON string, or a `time.Time`, which is written as the
string of its instant. -/
inductive JsonScalar where
  /-- A number. -/
  | num (n : Int)
  /-- A string. -/
  | str (s : String)
  /-- A point of time. -/
  | time (t : Int)
deriving DecidableEq, Repr

/-- A JSON object whose members are scalars, in the order they are written. -/
abbrev JsonObject := List (String × JsonScalar)

/-- A member value of the top-level object. -/
inductive JsonValue where
  /-- A scalar. -/
  | scalar (v : JsonScalar)
  /-- A JSON array of objects. -/
  | array (items : List JsonObject)
  /-- A JSON object whose members are objects. -/
  | object (members : List (String × JsonObject))
deriving DecidableEq, Repr

/-- The top-level object of a document. -/
abbrev JsonDocument := List (String × JsonValue)

/-- A struct field as `encoding/json` sees it: the depth of embedding at which
it is declared, the name in its `json` tag, and its value (`none` for a field
that is not encodable and is tagged `-`). -/
structure Field (V : Type) where
  depth : Nat
  tag : String
  value : Option V

/-- Modelled from the spec: the struct encoding of `encoding/json` (not part of
the repository).  Fields are written in the order of declaration; a field
tagged `-` is skipped, and so is a field hidden by a field of the same name
declared at a smaller depth. -/
def encodeStruct {V : Type} (fs : List (Field V)) : List (String × V) :=
  fs.filterMap (fun f =>
    if f.tag = "-" then none
    else if fs.any (fun g => decide (g.tag = f.tag ∧ g.depth < f.depth)) then none
    else f.value.map (fun v => (f.tag, v)))

/-- The fields of the struct `NamedFunc` with their `json` tags. -/
def NamedFunc.fields {W : Type} (nf : NamedFunc W) : List (Field JsonScalar) :=
  [{ depth := 0, tag := "id", value := some (JsonScalar.num nf.ID) },
   { depth := 0, tag := "name", value := some (JsonScalar.str nf.Name) },
   { depth := 0, tag := "description", value := some (JsonScalar.str nf.Description) },
   { depth := 0, tag := "spec", value := some (JsonScalar.str nf.Spec) },
   { depth := 0, tag := "-", value := none },
   { depth := 0, tag := "timeout", value := some (JsonScalar.num nf.Timeout) },
   { depth := 0, tag := "updatedAt", value := some (JsonScalar.time nf.UpdatedAt) }]

/-- The JSON object written for a `NamedFunc`. -/
def encodeNamedFunc {W : Type} (nf : NamedFunc W) : JsonObject :=
  encodeStruct nf.fields

/-- Modelled from the spec: the map encoding of `encoding/json`, a JSON object
with one member per key, sorted by key. -/
def encodeFuncsMap {W : Type} (m : List (String × NamedFunc W)) : List (String × JsonObject) :=
  List.insertionSort (fun a b => a.1.data ≤ b.1.data)
    (m.map (fun p => (p.1, encodeNamedFunc p.2)))

/-- The fields of the struct `DynamicScheduler` with their `json` tags, seen
at embedding depth `depth`: `Name`, `Cron` (tag `-`), `Funcs`, `Mu` (tag `-`). -/
def DynamicScheduler.fields {W : Type} (depth : Nat) (d : DynamicScheduler W) :
    List (Field JsonValue) :=
  [{ depth := depth, tag := "name", value := some (JsonValue.scalar (JsonScalar.str d.Name)) },
   { depth := depth, tag := "-", value := none },
   { depth := depth, tag := "funcs", value := some (JsonValue.object (encodeFuncsMap d.Funcs)) },
   { depth := depth, tag := "-", value := none }]

/-- The method `MarshalJSON` of `*DynamicScheduler`: the encoding of the struct
that embeds the scheduler (as `*Alias`, depth 1) and declares `Funcs
[]NamedFunc` with tag `funcs` (depth 0), set to `d.ListFuncs()`, whose order
is given by `rank`. -/
def MarshalJSON {W : Type} (rank : String → Nat) (d : DynamicScheduler W) : JsonDocument :=
  encodeStruct (d.fields 1 ++
    [{ depth := 0, tag := "funcs",
       value := some (JsonValue.array ((ListFuncs rank d).map encodeNamedFunc)) }])

/-- The method `String` of `DynamicScheduler`.  Its receiver is a struct value
and it hands that value to `json.MarshalIndent`; `MarshalJSON` has a pointer
receiver and is not in the method set of the value, so `encoding/json` encodes
the struct field by field. -/
def DynamicScheduler.String {W : Type} (ds : DynamicScheduler W) : JsonDocument :=
  encodeStruct (ds.fields 0)

/-- The scheduler `sampleRun` after two rejected updates of `test_func` and an
accepted update of `other`. -/
def sampleRecovering : DynamicScheduler Nat :=
  runOps sampleValid [Op.update 22 "other" "@every 9s"]
    (runOps sampleValid
      ([(20, "invalid-spec"), (21, "invalid-spec")].map
        (fun b => Op.update b.1 "test_func" b.2)) sampleRun)

/-- A sample order of visiting the map: by the length of the key, so that in
`sampleRun` the job `other` is listed before `test_func`. -/
def sampleRank (key : String) : Nat :=
  key.length

/-- The scheduler of `TestListScheduler`: `TestScheduler` with the job
`test_job`, spec `@every 1s` and no work, registered at time 10. -/
def sampleListed : DynamicScheduler Nat :=
  (RegisterFunc sampleValid 10 (NewDynamicScheduler "TestScheduler")
    { ID := 0, Name := "test_job", Description := "", Spec := "@every 1s", Func := none,
      Timeout := 0, UpdatedAt := 0 }).1

/-- A sample work for concrete firings: work `k` adds `k` to a counter world,
and work 0 never returns. -/
def sampleWork (k : Nat) (s : Nat) : Option Nat :=
  if k = 0 then none else some (s + k)

/-! ## JSON text

The text that `encoding/json` writes for a document, as the list of the code
points of its characters (the bytes of the real output are the UTF-8 encoding
of this list; a Lean `String` is a sequence of Unicode characters, so the
strings of the model are the Go strings that are valid UTF-8).  `fmtTime` is
the formatting of a `time.Time` (RFC 3339, by the package `time`) and
`parseTime` its parsing; both are parameters. -/

/-- The code points of the characters of a string. -/
def codes (s : String) : List Nat :=
  s.data.map Char.toNat

/-- The string whose characters have the code points `l`. -/
def ofCodes (l : List Nat) : String :=
  String.mk (l.map Char.ofNat)

/-- The lower-case hexadecimal digit of `n < 16`, as a code point. -/
def hexDigit (n : Nat) : Nat :=
  if n < 10 then 48 + n else 87 + n

/-- Modelled from the spec: how `encoding/json` (not part of the repository)
writes one character inside a string.  The double quote (34) and the backslash
(92) get a backslash in front; backspace, form feed, line feed, carriage
return and tab become `\b`, `\f`, `\n`, `\r`, `\t` (Go 1.22 and later; older
releases write backspace and form feed as `\u0008` and `\u000c`, which the
reader below accepts as well); the other control
characters, `<` (60), `>` (62), `&` (38), U+2028 and U+2029 become `\u` and
four hexadecimal digits; every other character is written as it is. -/
def escapeCode (c : Nat) : List Nat :=
  if c = 34 then [92, 34]
  else if c = 92 then [92, 92]
  else if c = 8 then [92, 98]
  else if c = 12 then [92, 102]
  else if c = 10 then [92, 110]
  else if c = 13 then [92, 114]
  else if c = 9 then [92, 116]
  else if c < 32 ∨ c = 60 ∨ c = 62 ∨ c = 38 ∨ c = 8232 ∨ c = 8233 then
    [92, 117, hexDigit (c / 4096 % 16), hexDigit (c / 256 % 16), hexDigit (c / 16 % 16),
      hexDigit (c % 16)]
  else [c]

/-- The characters of a string as they stand between the quotes. -/
def escapeString (s : String) : List Nat :=
  (codes s).flatMap escapeCode

/-- A JSON string: the escaped characters between two double quotes. -/
def renderString (s : String) : List Nat :=
  34 :: (escapeString s ++ [34])

/-- The decimal digits of `n` in front of `acc`; `fuel` bounds the number of
digits. -/
def digitsAux : Nat → Nat → List Nat → List Nat
  | 0, _, acc => acc
  | fuel + 1, n, acc =>
    if n < 10 then (48 + n) :: acc else digitsAux fuel (n / 10) ((48 + n % 10) :: acc)

/-- A natural number in decimal. -/
def renderNat (n : Nat) : List Nat :=
  digitsAux (n + 1) n []

/-- A JSON number for an integer: decimal, with `-` (45) in front when negative. -/
def renderInt (n : Int) : List Nat :=
  if n < 0 then 45 :: renderNat n.natAbs else renderNat n.natAbs

/-- The text of a scalar; a time is written as the string of its format. -/
def renderScalar (fmtTime : Int → String) : JsonScalar → List Nat
  | JsonScalar.num n => renderInt n
  | JsonScalar.str s => renderString s
  | JsonScalar.time t => renderString (fmtTime t)

/-- The texts `parts`, separated by commas (44). -/
def joinComma : List (List Nat) → List Nat
  | [] => []
  | [x] => x
  | x :: y :: rest => x ++ 44 :: joinComma (y :: rest)

/-- One member of an object: the name, a colon (58), the value. -/
def renderMember (fmtTime : Int → String) (m : String × JsonScalar) : List Nat :=
  renderString m.1 ++ 58 :: renderScalar fmtTime m.2

/-- An object of scalars, between braces (123, 125). -/
def renderObject (fmtTime : Int → String) (o : JsonObject) : List Nat :=
  123 :: (joinComma (o.map (renderMember fmtTime)) ++ [125])

/-- An array of objects, between brackets (91, 93). -/
def renderArray (fmtTime : Int → String) (items : List JsonObject) : List Nat :=
  91 :: (joinComma (items.map (renderObject fmtTime)) ++ [93])

/-- The text of a member value of the top-level object. -/
def renderValue (fmtTime : Int → String) : JsonValue → List Nat
  | JsonValue.scalar v => renderScalar fmtTime v
  | JsonValue.array items => renderArray fmtTime items
  | JsonValue.object members =>
    123 :: (joinComma (members.map
      (fun m => renderString m.1 ++ 58 :: renderObject fmtTime m.2)) ++ [125])

/-- Modelled from the spec: the text `encoding/json` writes for a document,
compact, members in order. -/
def renderDocument (fmtTime : Int → String) (doc : JsonDocument) : List Nat :=
  123 :: (joinComma (doc.map
    (fun m => renderString m.1 ++ 58 :: renderValue fmtTime m.2)) ++ [125])

/-- The bytes that `MarshalJSON` returns: the text of its document. -/
def marshalText {W : Type} (fmtTime : Int → String) (rank : String → Nat)
    (d : DynamicScheduler W) : List Nat :=
  renderDocument fmtTime (MarshalJSON rank d)

/-! ## Reading JSON text -/

/-- Where the reader of a string stands: between characters, after a
backslash, or inside `\u` with `left` digits to read and the value `acc`. -/
inductive ScanMode where
  /-- Between characters. -/
  | plain
  /-- After a backslash. -/
  | escaped
  /-- Inside a `\u` escape. -/
  | hex (left acc : Nat)

/-- The character that stands for the one after a backslash. -/
def unescapeCode (c : Nat) : Option Nat :=
  if c = 34 then some 34
  else if c = 92 then some 92
  else if c = 47 then some 47
  else if c = 98 then some 8
  else if c = 102 then some 12
  else if c = 110 then some 10
  else if c = 114 then some 13
  else if c = 116 then some 9
  else none

/-- The value of a hexadecimal digit. -/
def hexValue (c : Nat) : Option Nat :=
  if 48 ≤ c ∧ c ≤ 57 then some (c - 48)
  else if 97 ≤ c ∧ c ≤ 102 then some (c - 87)
  else if 65 ≤ c ∧ c ≤ 70 then some (c - 55)
  else none

/-- Reads the characters of a JSON string up to its closing quote: the
characters read and the text after the quote. -/
def scanString : ScanMode → List Nat → Option (List Nat × List Nat)
  | _, [] => none
  | ScanMode.plain, c :: rest =>
    if c = 34 then some ([], rest)
    else if c = 92 then scanString ScanMode.escaped rest
    else if c < 32 then none
    else (scanString ScanMode.plain rest).map (fun r => (c :: r.1, r.2))
  | ScanMode.escaped, c :: rest =>
    if c = 117 then scanString (ScanMode.hex 4 0) rest
    else
      match unescapeCode c with
      | none => none
      | some v => (scanString ScanMode.plain rest).map (fun r => (v :: r.1, r.2))
  | ScanMode.hex left acc, c :: rest =>
    match hexValue c with
    | none => none
    | some v =>
      if left ≤ 1 then
        (scanString ScanMode.plain rest).map (fun r => ((acc * 16 + v) :: r.1, r.2))
      else scanString (ScanMode.hex (left - 1) (acc * 16 + v)) rest

/-- Reads a JSON string: the string and the text after it. -/
def parseString : List Nat → Option (String × List Nat)
  | [] => none
  | c :: rest =>
    if c = 34 then (scanString ScanMode.plain rest).map (fun r => (ofCodes r.1, r.2))
    else none

/-- Reads decimal digits onto `acc`: the number and the text after it. -/
def scanNat (acc : Nat) : List Nat → Nat × List Nat
  | [] => (acc, [])
  | c :: rest =>
    if 48 ≤ c ∧ c ≤ 57 then scanNat (acc * 10 + (c - 48)) rest else (acc, c :: rest)

/-- Reads a natural number of at least one digit. -/
def parseNat : List Nat → Option (Nat × List Nat)
  | [] => none
  | c :: rest => if 48 ≤ c ∧ c ≤ 57 then some (scanNat 0 (c :: rest)) else none

/-- Reads a JSON integer. -/
def parseInt : List Nat → Option (Int × List Nat)
  | [] => none
  | c :: rest =>
    if c = 45 then (parseNat rest).map (fun r => (-(r.1 : Int), r.2))
    else (parseNat (c :: rest)).map (fun r => ((r.1 : Int), r.2))

/-- Reads a scalar: a string when the text starts with a quote, else a number. -/
def parseScalar : List Nat → Option (JsonScalar × List Nat)
  | [] => none
  | c :: rest =>
    if c = 34 then (parseString (c :: rest)).map (fun r => (JsonScalar.str r.1, r.2))
    else (parseInt (c :: rest)).map (fun r => (JsonScalar.num r.1, r.2))

/-- Reads the members of an object of scalars up to the closing brace; `fuel`
bounds the number of members. -/
def parseMembers : Nat → List Nat → Option (JsonObject × List Nat)
  | 0, _ => none
  | fuel + 1, text =>
    match parseString text with
    | some (key, 58 :: afterColon) =>
      match parseScalar afterColon with
      | some (v, 44 :: more) => (parseMembers fuel more).map (fun r => ((key, v) :: r.1, r.2))
      | some (v, 125 :: rest) => some ([(key, v)], rest)
      | _ => none
    | _ => none

/-- Reads an object of scalars. -/
def parseObject (fuel : Nat) : List Nat → Option (JsonObject × List Nat)
  | 123 :: 125 :: rest => some ([], rest)
  | 123 :: rest => parseMembers fuel rest
  | _ => none

/-- Reads the items of an array of objects up to the closing bracket. -/
def parseItems : Nat → List Nat → Option (List JsonObject × List Nat)
  | 0, _ => none
  | fuel + 1, text =>
    match parseObject fuel text with
    | some (o, 44 :: more) => (parseItems fuel more).map (fun r => (o :: r.1, r.2))
    | some (o, 93 :: rest) => some ([o], rest)
    | _ => none

/-- Reads the members of an object of objects up to the closing brace. -/
def parseKeyed : Nat → List Nat → Option (List (String × JsonObject) × List Nat)
  | 0, _ => none
  | fuel + 1, text =>
    match parseString text with
    | some (key, 58 :: afterColon) =>
      match parseObject fuel afterColon with
      | some (o, 44 :: more) => (parseKeyed fuel more).map (fun r => ((key, o) :: r.1, r.2))
      | some (o, 125 :: rest) => some ([(key, o)], rest)
      | _ => none
    | _ => none

/-- Reads a member value of the top-level object: an array of objects, an
object of objects, or a scalar. -/
def parseValue (fuel : Nat) : List Nat → Option (JsonValue × List Nat)
  | 91 :: 93 :: rest => some (JsonValue.array [], rest)
  | 91 :: rest => (parseItems fuel rest).map (fun r => (JsonValue.array r.1, r.2))
  | 123 :: 125 :: rest => some (JsonValue.object [], rest)
  | 123 :: rest => (parseKeyed fuel rest).map (fun r => (JsonValue.object r.1, r.2))
  | text => (parseScalar text).map (fun r => (JsonValue.scalar r.1, r.2))

/-- Reads the members of the top-level object up to the closing brace. -/
def parseTop : Nat → List Nat → Option (JsonDocument × List Nat)
  | 0, _ => none
  | fuel + 1, text =>
    match parseString text with
    | some (key, 58 :: afterColon) =>
      match parseValue fuel afterColon with
      | some (v, 44 :: more) => (parseTop fuel more).map (fun r => ((key, v) :: r.1, r.2))
      | some (v, 125 :: rest) => some ([(key, v)], rest)
      | _ => none
    | _ => none

/-- Reads a whole text as one document; the length of the text bounds every
loop of the reader. -/
def parseDocument (text : List Nat) : Option JsonDocument :=
  match text with
  | 123 :: 125 :: [] => some []
  | 123 :: rest =>
    match parseTop text.length rest with
    | some (doc, []) => some doc
    | _ => none
  | _ => none

/-- A scalar as the reader gives it back: a time comes back as the string of
its format. -/
def readScalar (fmtTime : Int → String) : JsonScalar → JsonScalar
  | JsonScalar.time t => JsonScalar.str (fmtTime t)
  | v => v

/-- An object as the reader gives it back. -/
def readObject (fmtTime : Int → String) (o : JsonObject) : JsonObject :=
  o.map (fun m => (m.1, readScalar fmtTime m.2))

/-- The text does not go on with a decimal digit. -/
def endsNumber (tail : List Nat) : Prop :=
  ∀ c rest, tail = c :: rest → ¬ (48 ≤ c ∧ c ≤ 57)

/-! ## Decoding a document into Go values -/

/-- Reads the string member `key`; an absent member leaves the zero value. -/
def decodeString (o : JsonObject) (key : String) : Option String :=
  match mapGet o key with
  | none => some ""
  | some (JsonScalar.str s) => some s
  | some _ => none

/-- Reads the number member `key`; an absent member leaves the zero value. -/
def decodeInt (o : JsonObject) (key : String) : Option Int :=
  match mapGet o key with
  | none => some 0
  | some (JsonScalar.num n) => some n
  | some _ => none

/-- Reads the time member `key`, a string that `parseTime` must accept; an
absent member leaves the zero value. -/
def decodeTime (parseTime : String → Option Int) (o : JsonObject) (key : String) :
    Option Int :=
  match mapGet o key with
  | none => some 0
  | some (JsonScalar.str s) => parseTime s
  | some (JsonScalar.time t) => some t
  | some _ => none

/-- Modelled from the spec: `json.Unmarshal` of an object into a `NamedFunc`;
the field `Func` (tag `-`) is not read and stays nil. -/
def decodeNamedFunc {W : Type} (parseTime : String → Option Int) (o : JsonObject) :
    Option (NamedFunc W) :=
  match decodeInt o "id", decodeString o "name", decodeString o "description",
      decodeString o "spec", decodeInt o "timeout", decodeTime parseTime o "updatedAt" with
  | some id, some name, some description, some spec, some timeout, some updatedAt =>
    some { ID := id, Name := name, Description := description, Spec := spec, Func := none,
           Timeout := timeout, UpdatedAt := updatedAt }
  | _, _, _, _, _, _ => none

/-- Decodes every object of a JSON array of jobs. -/
def decodeNamedFuncs {W : Type} (parseTime : String → Option Int) :
    List JsonObject → Option (List (NamedFunc W))
  | [] => some []
  | o :: rest =>
    match decodeNamedFunc parseTime o, decodeNamedFuncs parseTime rest with
    | some nf, some nfs => some (nf :: nfs)
    | _, _ => none

/-- Modelled from the spec: `json.Unmarshal` of a document into the struct of
`TestMarshalJSON`, with `Name string` tagged `name` and `Funcs []NamedFunc`
tagged `funcs`; an absent member leaves the zero value. -/
def decodeSnapshot {W : Type} (parseTime : String → Option Int) (doc : JsonDocument) :
    Option (String × List (NamedFunc W)) :=
  match
    (match mapGet doc "name" with
      | none => some ""
      | some (JsonValue.scalar (JsonScalar.str name)) => some name
      | some _ => none),
    (match mapGet doc "funcs" with
      | none => some []
      | some (JsonValue.array items) => decodeNamedFuncs parseTime items
      | some _ => none) with
  | some name, some nfs => some (name, nfs)
  | _, _ => none

/-- Modelled from the spec: `json.Unmarshal(data, &result)` as in
`TestMarshalJSON`: the text is read as one document, which is decoded. -/
def unmarshalSnapshot {W : Type} (parseTime : String → Option Int) (text : List Nat) :
    Option (String × List (NamedFunc W)) :=
  match parseDocument text with
  | none => none
  | some doc => decodeSnapshot parseTime doc

/-- A sample time format for concrete snapshots: the clock reading in decimal. -/
def sampleFmtTime (t : Int) : String :=
  ofCodes (renderInt t)

/-- The parser of `sampleFmtTime`. -/
def sampleParseTime (s : String) : Option Int :=
  match parseInt (codes s) with
  | some (n, []) => some n
  | _ => none

/-- A scheduler named `test` with the job `a<b`, registered at time 10. -/
def sampleEscaped : DynamicScheduler Nat :=
  (RegisterFunc sampleValid 10 (NewDynamicScheduler "test")
    { ID := 0, Name := "a<b", Description := "", Spec := "@every 1s", Func := none,
      Timeout := 0, UpdatedAt := 0 }).1

/-- Every character of `s` is written as it is by `encoding/json`: none is
escaped. -/
def plainString (s : String) : Prop :=
  ∀ c ∈ codes s, escapeCode c = [c]

/-! ## Facts about maps -/

theorem mapGet_mapSet_same {V : Type} (m : List (String × V)) (key : String) (v : V) :
    mapGet (mapSet m key v) key = some v := by
  induction m with
  | nil => simp [mapSet, mapGet]
  | cons p rest ih =>
    obtain ⟨k, v0⟩ := p
    by_cases h : k = key
    · simp [mapSet, mapGet, h]
    · simp [mapSet, mapGet, h, ih]

theorem mapGet_mapSet_other {V : Type} (m : List (String × V)) (key other : String) (v : V)
    (hne : other ≠ key) : mapGet (mapSet m key v) other = mapGet m other := by
  induction m with
  | nil =>
    have h : ¬ key = other := fun h => hne h.symm
    simp [mapSet, mapGet, h]
  | cons p rest ih =>
    obtain ⟨k, v0⟩ := p
    by_cases h : k = key
    · subst h
      have h2 : ¬ k = other := fun h => hne h.symm
      simp [mapSet, mapGet, h2]
    · by_cases h2 : k = other
      · subst h2
        simp [mapSet, mapGet, h]
      · simp [mapSet, mapGet, h, h2, ih]

theorem mem_mapSet {V : Type} (m : List (String × V)) (key : String) (v : V)
    (p : String × V) (hp : p ∈ mapSet m key v) : p ∈ m ∨ p = (key, v) := by
  induction m with
  | nil =>
    simp [mapSet] at hp
    exact Or.inr hp
  | cons q rest ih =>
    obtain ⟨k, v0⟩ := q
    by_cases h : k = key
    · subst h
      simp only [mapSet, if_true, List.mem_cons] at hp
      rcases hp with hp | hp
      · exact Or.inr hp
      · exact Or.inl (List.mem_cons_of_mem _ hp)
    · simp only [mapSet, h, if_false, List.mem_cons] at hp
      rcases hp with hp | hp
      · exact Or.inl (hp ▸ List.mem_cons_self _ _)
      · rcases ih hp with h1 | h1
        · exact Or.inl (List.mem_cons_of_mem _ h1)
        · exact Or.inr h1

theorem mapGet_eq_none_iff {V : Type} (m : List (String × V)) (key : String) :
    mapGet m key = none ↔ key ∉ mapKeys m := by
  induction m with
  | nil => simp [mapGet, mapKeys]
  | cons q rest ih =>
    obtain ⟨k, v0⟩ := q
    by_cases h : k = key
    · subst h
      simp [mapGet, mapKeys]
    · have h2 : ¬ key = k := fun e => h e.symm
      simp only [mapGet, h, if_false, ih]
      simp [mapKeys, h2]

theorem mem_of_mapGet {V : Type} (m : List (String × V)) (key : String) (v : V)
    (h : mapGet m key = some v) : (key, v) ∈ m := by
  induction m with
  | nil => simp [mapGet] at h
  | cons q rest ih =>
    obtain ⟨k, v0⟩ := q
    by_cases hk : k = key
    · subst hk
      simp only [mapGet, if_true, Option.some.injEq] at h
      subst h
      exact List.mem_cons_self _ _
    · simp only [mapGet, hk, if_false] at h
      exact List.mem_cons_of_mem _ (ih h)

theorem mapKeys_mapSet_absent {V : Type} (m : List (String × V)) (key : String) (v : V)
    (h : mapGet m key = none) : mapKeys (mapSet m key v) = mapKeys m ++ [key] := by
  induction m with
  | nil => simp [mapSet, mapKeys]
  | cons q rest ih =>
    obtain ⟨k, v0⟩ := q
    by_cases hk : k = key
    · subst hk
      simp [mapGet] at h
    · simp only [mapGet, hk, if_false] at h
      have ih1 := ih h
      simp only [mapKeys] at ih1
      simp [mapSet, hk, mapKeys, ih1]

theorem mapKeys_mapSet_present {V : Type} (m : List (String × V)) (key : String) (v w : V)
    (h : mapGet m key = some w) : mapKeys (mapSet m key v) = mapKeys m := by
  induction m generalizing w with
  | nil => simp [mapGet] at h
  | cons q rest ih =>
    obtain ⟨k, v0⟩ := q
    by_cases hk : k = key
    · subst hk
      simp [mapSet, mapKeys]
    · simp only [mapGet, hk, if_false] at h
      have ih1 := ih w h
      simp only [mapKeys] at ih1
      simp [mapSet, hk, mapKeys, ih1]

/-! ## The three outcomes of each mutating call -/

theorem RegisterFunc_of_present {W : Type} (valid : String → Bool) (now : Int)
    (d : DynamicScheduler W) (nf old : NamedFunc W) (h : mapGet d.Funcs nf.Name = some old) :
    RegisterFunc valid now d nf = (d, some (SchedError.alreadyRegistered nf.Name)) := by
  simp [RegisterFunc, h]

theorem RegisterFunc_of_rejected {W : Type} (valid : String → Bool) (now : Int)
    (d : DynamicScheduler W) (nf : NamedFunc W) (h : mapGet d.Funcs nf.Name = none)
    (hv : valid nf.Spec = false) :
    RegisterFunc valid now d nf =
      ({ d with Cron := { d.Cron with calls := d.Cron.calls ++ [EngineCall.add nf.Spec] } },
       some SchedError.invalidCronSpec) := by
  simp [RegisterFunc, h, Engine.AddFunc, hv]

theorem RegisterFunc_of_accepted {W : Type} (valid : String → Bool) (now : Int)
    (d : DynamicScheduler W) (nf : NamedFunc W) (h : mapGet d.Funcs nf.Name = none)
    (hv : valid nf.Spec = true) :
    RegisterFunc valid now d nf =
      ({ Name := d.Name,
         Cron := { nextID := d.Cron.nextID + 1,
                   entries := d.Cron.entries ++
                     [{ ID := d.Cron.nextID + 1, Spec := nf.Spec,
                        Job := wrapFunction nf.Func nf.Timeout }],
                   calls := d.Cron.calls ++ [EngineCall.add nf.Spec] },
         Funcs := mapSet d.Funcs nf.Name { nf with ID := d.Cron.nextID + 1, UpdatedAt := now } },
       none) := by
  simp [RegisterFunc, h, Engine.AddFunc, hv]

theorem UpdateSpec_of_absent {W : Type} (valid : String → Bool) (now : Int)
    (d : DynamicScheduler W) (name newSpec : String) (h : mapGet d.Funcs name = none) :
    UpdateSpec valid now d name newSpec = (d, some (SchedError.notFound name)) := by
  simp [UpdateSpec, h]

theorem UpdateSpec_of_rejected {W : Type} (valid : String → Bool) (now : Int)
    (d : DynamicScheduler W) (name newSpec : String) (nf : NamedFunc W)
    (h : mapGet d.Funcs name = some nf) (hv : valid newSpec = false) :
    UpdateSpec valid now d name newSpec =
      ({ d with
          Cron := { Engine.Remove d.Cron nf.ID with
            calls := d.Cron.calls ++ [EngineCall.remove nf.ID, EngineCall.add newSpec] } },
        some SchedError.invalidNewSpec) := by
  simp [UpdateSpec, h, Engine.AddFunc, hv, Engine.Remove]

theorem UpdateSpec_of_accepted {W : Type} (valid : String → Bool) (now : Int)
    (d : DynamicScheduler W) (name newSpec : String) (nf : NamedFunc W)
    (h : mapGet d.Funcs name = some nf) (hv : valid newSpec = true) :
    UpdateSpec valid now d name newSpec =
      ({ Name := d.Name,
         Cron := { nextID := d.Cron.nextID + 1,
                   entries := (Engine.Remove d.Cron nf.ID).entries ++
                     [{ ID := d.Cron.nextID + 1, Spec := newSpec,
                        Job := wrapFunction nf.Func nf.Timeout }],
                   calls := d.Cron.calls ++ [EngineCall.remove nf.ID, EngineCall.add newSpec] },
         Funcs := mapSet d.Funcs name
           { nf with ID := d.Cron.nextID + 1, Spec := newSpec, UpdatedAt := now } },
       none) := by
  simp [UpdateSpec, h, Engine.AddFunc, hv, Engine.Remove]

/-! ## Handles never exceed the counter of the engine -/

theorem HandlesBounded_new {W : Type} (name : String) :
    HandlesBounded (NewDynamicScheduler name : DynamicScheduler W) := by
  simp [HandlesBounded, NewDynamicScheduler, Engine.new]

theorem HandlesBounded_RegisterFunc {W : Type} (valid : String → Bool) (now : Int)
    (d : DynamicScheduler W) (nf : NamedFunc W) (hd : HandlesBounded d) :
    HandlesBounded (RegisterFunc valid now d nf).1 := by
  cases hget : mapGet d.Funcs nf.Name with
  | some old => rw [RegisterFunc_of_present valid now d nf old hget]; exact hd
  | none =>
    cases hv : valid nf.Spec with
    | false => rw [RegisterFunc_of_rejected valid now d nf hget hv]; exact hd
    | true =>
      rw [RegisterFunc_of_accepted valid now d nf hget hv]
      constructor
      · intro p hp
        rcases mem_mapSet _ _ _ _ hp with h1 | h1
        · have := hd.1 p h1
          show p.2.ID ≤ d.Cron.nextID + 1
          omega
        · subst h1
          exact le_refl _
      · intro e he
        simp only [List.mem_append, List.mem_singleton] at he
        rcases he with h1 | h1
        · have := hd.2 e h1
          show e.ID ≤ d.Cron.nextID + 1
          omega
        · subst h1
          exact le_refl _

theorem HandlesBounded_UpdateSpec {W : Type} (valid : String → Bool) (now : Int)
    (d : DynamicScheduler W) (name newSpec : String) (hd : HandlesBounded d) :
    HandlesBounded (UpdateSpec valid now d name newSpec).1 := by
  cases hget : mapGet d.Funcs name with
  | none => rw [UpdateSpec_of_absent valid now d name newSpec hget]; exact hd
  | some nf =>
    cases hv : valid newSpec with
    | false =>
      rw [UpdateSpec_of_rejected valid now d name newSpec nf hget hv]
      refine ⟨hd.1, ?_⟩
      intro e he
      simp only [Engine.Remove, List.mem_filter] at he
      exact hd.2 e he.1
    | true =>
      rw [UpdateSpec_of_accepted valid now d name newSpec nf hget hv]
      constructor
      · intro p hp
        rcases mem_mapSet _ _ _ _ hp with h1 | h1
        · have := hd.1 p h1
          show p.2.ID ≤ d.Cron.nextID + 1
          omega
        · subst h1
          exact le_refl _
      · intro e he
        simp only [Engine.Remove, List.mem_append, List.mem_filter, List.mem_singleton] at he
        rcases he with h1 | h1
        · have := hd.2 e h1.1
          show e.ID ≤ d.Cron.nextID + 1
          omega
        · subst h1
          exact le_refl _

theorem HandlesBounded_runOps {W : Type} (valid : String → Bool) (ops : List (Op W))
    (d : DynamicScheduler W) (hd : HandlesBounded d) : HandlesBounded (runOps valid ops d) := by
  induction ops generalizing d with
  | nil => exact hd
  | cons op rest ih =>
    cases op with
    | register now nf => exact ih _ (HandlesBounded_RegisterFunc valid now d nf hd)
    | update now name newSpec =>
      exact ih _ (HandlesBounded_UpdateSpec valid now d name newSpec hd)

/-! ## The identity of a registered job is stable -/

theorem sameIdentity_refl {W : Type} (a : NamedFunc W) : sameIdentity a a :=
  ⟨rfl, rfl, rfl, rfl⟩

theorem sameIdentity_trans {W : Type} {a b c : NamedFunc W} (hab : sameIdentity a b)
    (hbc : sameIdentity b c) : sameIdentity a c :=
  ⟨hab.1.trans hbc.1, hab.2.1.trans hbc.2.1, hab.2.2.1.trans hbc.2.2.1,
    hab.2.2.2.trans hbc.2.2.2⟩

theorem identity_RegisterFunc {W : Type} (valid : String → Bool) (now : Int)
    (d : DynamicScheduler W) (nf : NamedFunc W) (name : String) (cur : NamedFunc W)
    (h : mapGet d.Funcs name = some cur) :
    mapGet (RegisterFunc valid now d nf).1.Funcs name = some cur := by
  cases hget : mapGet d.Funcs nf.Name with
  | some old => rw [RegisterFunc_of_present valid now d nf old hget]; exact h
  | none =>
    cases hv : valid nf.Spec with
    | false => rw [RegisterFunc_of_rejected valid now d nf hget hv]; exact h
    | true =>
      rw [RegisterFunc_of_accepted valid now d nf hget hv]
      have hne : name ≠ nf.Name := by
        intro e
        rw [e, hget] at h
        exact Option.noConfusion h
      show mapGet (mapSet d.Funcs nf.Name _) name = some cur
      rw [mapGet_mapSet_other _ _ _ _ hne]
      exact h

theorem identity_UpdateSpec {W : Type} (valid : String → Bool) (now : Int)
    (d : DynamicScheduler W) (target newSpec name : String) (cur : NamedFunc W)
    (h : mapGet d.Funcs name = some cur) :
    ∃ next, mapGet (UpdateSpec valid now d target newSpec).1.Funcs name = some next ∧
      sameIdentity next cur := by
  cases hget : mapGet d.Funcs target with
  | none =>
    rw [UpdateSpec_of_absent valid now d target newSpec hget]
    exact ⟨cur, h, sameIdentity_refl cur⟩
  | some nf =>
    cases hv : valid newSpec with
    | false =>
      rw [UpdateSpec_of_rejected valid now d target newSpec nf hget hv]
      exact ⟨cur, h, sameIdentity_refl cur⟩
    | true =>
      rw [UpdateSpec_of_accepted valid now d target newSpec nf hget hv]
      by_cases hne : name = target
      · subst hne
        have hcur : nf = cur := by
          rw [hget] at h
          exact Option.some.inj h
        subst hcur
        refine ⟨_, mapGet_mapSet_same _ _ _, ?_⟩
        exact ⟨rfl, rfl, rfl, rfl⟩
      · refine ⟨cur, ?_, sameIdentity_refl cur⟩
        show mapGet (mapSet d.Funcs target _) name = some cur
        rw [mapGet_mapSet_other _ _ _ _ hne]
        exact h

theorem identity_runOps {W : Type} (valid : String → Bool) (ops : List (Op W))
    (d : DynamicScheduler W) (name : String) (cur : NamedFunc W)
    (h : mapGet d.Funcs name = some cur) :
    ∃ next, mapGet (runOps valid ops d).Funcs name = some next ∧ sameIdentity next cur := by
  induction ops generalizing d cur with
  | nil => exact ⟨cur, h, sameIdentity_refl cur⟩
  | cons op rest ih =>
    cases op with
    | register now nf =>
      exact ih _ cur (identity_RegisterFunc valid now d nf name cur h)
    | update now target newSpec =>
      obtain ⟨mid, hmid, hsame⟩ := identity_UpdateSpec valid now d target newSpec name cur h
      obtain ⟨next, hnext, hsame2⟩ := ih _ mid hmid
      exact ⟨next, hnext, sameIdentity_trans hsame2 hsame⟩

/-! ## The keys of the registry along a run -/

theorem KeyedByName_RegisterFunc {W : Type} (valid : String → Bool) (now : Int)
    (d : DynamicScheduler W) (nf : NamedFunc W) (hd : KeyedByName d) :
    KeyedByName (RegisterFunc valid now d nf).1 := by
  cases hget : mapGet d.Funcs nf.Name with
  | some old => rw [RegisterFunc_of_present valid now d nf old hget]; exact hd
  | none =>
    cases hv : valid nf.Spec with
    | false => rw [RegisterFunc_of_rejected valid now d nf hget hv]; exact hd
    | true =>
      rw [RegisterFunc_of_accepted valid now d nf hget hv]
      intro p hp
      rcases mem_mapSet _ _ _ _ hp with h1 | h1
      · exact hd p h1
      · subst h1
        rfl

theorem KeyedByName_UpdateSpec {W : Type} (valid : String → Bool) (now : Int)
    (d : DynamicScheduler W) (name newSpec : String) (hd : KeyedByName d) :
    KeyedByName (UpdateSpec valid now d name newSpec).1 := by
  cases hget : mapGet d.Funcs name with
  | none => rw [UpdateSpec_of_absent valid now d name newSpec hget]; exact hd
  | some nf =>
    cases hv : valid newSpec with
    | false => rw [UpdateSpec_of_rejected valid now d name newSpec nf hget hv]; exact hd
    | true =>
      rw [UpdateSpec_of_accepted valid now d name newSpec nf hget hv]
      intro p hp
      rcases mem_mapSet _ _ _ _ hp with h1 | h1
      · exact hd p h1
      · subst h1
        exact hd (name, nf) (mem_of_mapGet _ _ _ hget)

theorem mapKeys_UpdateSpec {W : Type} (valid : String → Bool) (now : Int)
    (d : DynamicScheduler W) (name newSpec : String) :
    mapKeys (UpdateSpec valid now d name newSpec).1.Funcs = mapKeys d.Funcs := by
  cases hget : mapGet d.Funcs name with
  | none => rw [UpdateSpec_of_absent valid now d name newSpec hget]
  | some nf =>
    cases hv : valid newSpec with
    | false => rw [UpdateSpec_of_rejected valid now d name newSpec nf hget hv]
    | true =>
      rw [UpdateSpec_of_accepted valid now d name newSpec nf hget hv]
      exact mapKeys_mapSet_present _ _ _ nf hget

theorem ListFuncs_perm {W : Type} (rank : String → Nat) (d : DynamicScheduler W) :
    List.Perm (ListFuncs rank d) (d.Funcs.map Prod.snd) :=
  (List.perm_insertionSort _ d.Funcs).map Prod.snd

theorem ListFuncs_names {W : Type} (rank : String → Nat) (d : DynamicScheduler W)
    (hd : KeyedByName d) :
    List.Perm ((ListFuncs rank d).map NamedFunc.Name) (mapKeys d.Funcs) := by
  have hperm := (ListFuncs_perm rank d).map NamedFunc.Name
  have hkeys : (d.Funcs.map Prod.snd).map NamedFunc.Name = mapKeys d.Funcs := by
    simp only [mapKeys, List.map_map]
    apply List.map_congr_left
    intro p hp
    exact hd p hp
  rw [hkeys] at hperm
  exact hperm

theorem run_keys {W : Type} (valid : String → Bool) (ops : List (Op W))
    (d : DynamicScheduler W) (hk : KeyedByName d) (hn : (mapKeys d.Funcs).Nodup) :
    KeyedByName (runOps valid ops d) ∧
      (mapKeys (runOps valid ops d).Funcs).Nodup ∧
      mapKeys (runOps valid ops d).Funcs = mapKeys d.Funcs ++ registeredNames valid ops d := by
  induction ops generalizing d with
  | nil => simp [runOps, registeredNames, hk, hn]
  | cons op rest ih =>
    cases op with
    | register now nf =>
      have hk1 := KeyedByName_RegisterFunc valid now d nf hk
      cases hget : mapGet d.Funcs nf.Name with
      | some old =>
        have hr := RegisterFunc_of_present valid now d nf old hget
        have := ih d hk hn
        simpa [runOps, Op.apply, registeredNames, hr] using this
      | none =>
        cases hv : valid nf.Spec with
        | false =>
          have hr := RegisterFunc_of_rejected valid now d nf hget hv
          rw [hr] at hk1
          have := ih _ hk1 hn
          simp only [runOps, Op.apply, registeredNames, hr]
          exact this
        | true =>
          have hr := RegisterFunc_of_accepted valid now d nf hget hv
          rw [hr] at hk1
          have hkeys : mapKeys (mapSet d.Funcs nf.Name
              { nf with ID := d.Cron.nextID + 1, UpdatedAt := now })
              = mapKeys d.Funcs ++ [nf.Name] := mapKeys_mapSet_absent _ _ _ hget
          have hnot : nf.Name ∉ mapKeys d.Funcs := (mapGet_eq_none_iff _ _).1 hget
          have hn1 : (mapKeys d.Funcs ++ [nf.Name]).Nodup := by
            rw [List.nodup_append]
            refine ⟨hn, List.nodup_singleton _, ?_⟩
            intro a ha hb
            rw [List.mem_singleton] at hb
            exact hnot (hb ▸ ha)
          have := ih _ hk1 (by rw [hkeys]; exact hn1)
          simp only [runOps, Op.apply, registeredNames, hr]
          refine ⟨this.1, this.2.1, ?_⟩
          rw [this.2.2, hkeys]
          simp
    | update now name newSpec =>
      have hk1 := KeyedByName_UpdateSpec valid now d name newSpec hk
      have hkeys := mapKeys_UpdateSpec valid now d name newSpec
      have := ih _ hk1 (by rw [hkeys]; exact hn)
      simp only [runOps, Op.apply, registeredNames]
      refine ⟨this.1, this.2.1, ?_⟩
      rw [this.2.2, hkeys]

theorem mapGet_of_mem {V : Type} (m : List (String × V)) (key : String) (v : V)
    (hn : (mapKeys m).Nodup) (h : (key, v) ∈ m) : mapGet m key = some v := by
  induction m with
  | nil => simp at h
  | cons q rest ih =>
    obtain ⟨k, v0⟩ := q
    simp only [mapKeys, List.map_cons, List.nodup_cons] at hn
    rcases List.mem_cons.1 h with h1 | h1
    · injection h1 with hk hv
      subst hk
      subst hv
      simp [mapGet]
    · have hk : k ≠ key := by
        intro e
        subst e
        exact hn.1 (List.mem_map.2 ⟨(k, v), h1, rfl⟩)
      simp only [mapGet, hk, if_false]
      exact ih hn.2 h1

theorem mapGet_mapSet {V : Type} (m : List (String × V)) (key k : String) (v : V) :
    mapGet (mapSet m key v) k = if k = key then some v else mapGet m k := by
  by_cases h : k = key
  · subst h
    simp [mapGet_mapSet_same]
  · simp [h, mapGet_mapSet_other _ _ _ _ h]

/-! ## The engine and the registry along a run -/

theorem EngineInv_new {W : Type} (name : String) :
    EngineInv (NewDynamicScheduler name : DynamicScheduler W) := by
  refine ⟨HandlesBounded_new name, ?_, ?_, ?_⟩
  · intro k1 k2 nf1 nf2 h1
    simp [NewDynamicScheduler, mapGet] at h1
  · intro e he
    simp [NewDynamicScheduler, Engine.new] at he
  · simp [NewDynamicScheduler, Engine.new, activeHandles]

/-- Installing a registration under the next handle of the counter and storing
that handle under `key` keeps the invariant, when the registrations that stay
belong to jobs other than `key`. -/
theorem EngineInv_install {W : Type} (d : DynamicScheduler W) (key spec : String)
    (v : NamedFunc W) (job : Wrapped W) (kept : List (Entry W)) (calls : List EngineCall)
    (hd : EngineInv d) (hv : v.ID = d.Cron.nextID + 1)
    (hsub : List.Sublist kept d.Cron.entries)
    (hown : ∀ e ∈ kept, ∃ k nf, k ≠ key ∧ mapGet d.Funcs k = some nf ∧ nf.ID = e.ID) :
    EngineInv
      { Name := d.Name,
        Cron := { nextID := d.Cron.nextID + 1,
                  entries := kept ++ [{ ID := d.Cron.nextID + 1, Spec := spec, Job := job }],
                  calls := calls },
        Funcs := mapSet d.Funcs key v } := by
  obtain ⟨hb, hdist, _, hnd⟩ := hd
  have hstored : ∀ k nf, mapGet d.Funcs k = some nf → nf.ID ≤ d.Cron.nextID :=
    fun k nf h => hb.1 (k, nf) (mem_of_mapGet _ _ _ h)
  refine ⟨⟨?_, ?_⟩, ?_, ?_, ?_⟩
  · intro p hp
    rcases mem_mapSet _ _ _ _ hp with h1 | h1
    · have := hb.1 p h1
      show p.2.ID ≤ d.Cron.nextID + 1
      omega
    · subst h1
      show v.ID ≤ d.Cron.nextID + 1
      omega
  · intro e he
    simp only [List.mem_append, List.mem_singleton] at he
    rcases he with h1 | h1
    · have := hb.2 e (hsub.subset h1)
      show e.ID ≤ d.Cron.nextID + 1
      omega
    · subst h1
      exact le_refl _
  · intro k1 k2 nf1 nf2 h1 h2 hid
    simp only [mapGet_mapSet] at h1 h2
    by_cases e1 : k1 = key
    · by_cases e2 : k2 = key
      · rw [e1, e2]
      · simp only [e1, e2, if_true, if_false, Option.some.injEq] at h1 h2
        have := hstored k2 nf2 h2
        rw [← h1] at hid
        omega
    · by_cases e2 : k2 = key
      · simp only [e1, e2, if_true, if_false, Option.some.injEq] at h1 h2
        have := hstored k1 nf1 h1
        rw [← h2] at hid
        omega
      · simp only [e1, e2, if_false] at h1 h2
        exact hdist k1 k2 nf1 nf2 h1 h2 hid
  · intro e he
    simp only [List.mem_append, List.mem_singleton] at he
    rcases he with h1 | h1
    · obtain ⟨k, nf, hk, hget, hid⟩ := hown e h1
      refine ⟨k, nf, ?_, hid⟩
      show mapGet (mapSet d.Funcs key v) k = some nf
      rw [mapGet_mapSet_other _ _ _ _ hk]
      exact hget
    · subst h1
      exact ⟨key, v, mapGet_mapSet_same _ _ _, hv⟩
  · have hkept : (kept.map Entry.ID).Nodup := (hsub.map Entry.ID).nodup hnd
    simp only [activeHandles, List.map_append, List.map_cons, List.map_nil]
    rw [List.nodup_append]
    refine ⟨hkept, List.nodup_singleton _, ?_⟩
    intro a ha hb2
    rw [List.mem_singleton] at hb2
    obtain ⟨e, he, hea⟩ := List.mem_map.1 ha
    have := hb.2 e (hsub.subset he)
    omega

theorem EngineInv_RegisterFunc {W : Type} (valid : String → Bool) (now : Int)
    (d : DynamicScheduler W) (nf : NamedFunc W) (hd : EngineInv d) :
    EngineInv (RegisterFunc valid now d nf).1 := by
  cases hget : mapGet d.Funcs nf.Name with
  | some old => rw [RegisterFunc_of_present valid now d nf old hget]; exact hd
  | none =>
    cases hv : valid nf.Spec with
    | false => rw [RegisterFunc_of_rejected valid now d nf hget hv]; exact hd
    | true =>
      rw [RegisterFunc_of_accepted valid now d nf hget hv]
      apply EngineInv_install d nf.Name nf.Spec _ _ d.Cron.entries _ hd rfl
        (List.Sublist.refl _)
      intro e he
      obtain ⟨k, cur, hk, hid⟩ := hd.2.2.1 e he
      refine ⟨k, cur, ?_, hk, hid⟩
      intro e1
      rw [e1, hget] at hk
      exact Option.noConfusion hk

theorem EngineInv_UpdateSpec {W : Type} (valid : String → Bool) (now : Int)
    (d : DynamicScheduler W) (name newSpec : String) (hd : EngineInv d) :
    EngineInv (UpdateSpec valid now d name newSpec).1 := by
  cases hget : mapGet d.Funcs name with
  | none => rw [UpdateSpec_of_absent valid now d name newSpec hget]; exact hd
  | some nf =>
    have hsub : List.Sublist (Engine.Remove d.Cron nf.ID).entries d.Cron.entries :=
      List.filter_sublist _
    cases hv : valid newSpec with
    | false =>
      rw [UpdateSpec_of_rejected valid now d name newSpec nf hget hv]
      obtain ⟨hb, hdist, hown, hnd⟩ := hd
      refine ⟨⟨hb.1, ?_⟩, hdist, ?_, ?_⟩
      · intro e he
        exact hb.2 e (hsub.subset he)
      · intro e he
        exact hown e (hsub.subset he)
      · exact (hsub.map Entry.ID).nodup hnd
    | true =>
      rw [UpdateSpec_of_accepted valid now d name newSpec nf hget hv]
      apply EngineInv_install d name newSpec _ _ (Engine.Remove d.Cron nf.ID).entries _ hd rfl
        hsub
      intro e he
      have he2 : e ∈ d.Cron.entries ∧ e.ID ≠ nf.ID := by
        simpa [Engine.Remove, List.mem_filter] using he
      obtain ⟨k, cur, hk, hid⟩ := hd.2.2.1 e he2.1
      refine ⟨k, cur, ?_, hk, hid⟩
      intro e1
      rw [e1, hget] at hk
      have : nf = cur := Option.some.inj hk
      rw [this] at he2
      exact he2.2 hid.symm

theorem EngineInv_runOps {W : Type} (valid : String → Bool) (ops : List (Op W))
    (d : DynamicScheduler W) (hd : EngineInv d) : EngineInv (runOps valid ops d) := by
  induction ops generalizing d with
  | nil => exact hd
  | cons op rest ih =>
    cases op with
    | register now nf => exact ih _ (EngineInv_RegisterFunc valid now d nf hd)
    | update now name newSpec => exact ih _ (EngineInv_UpdateSpec valid now d name newSpec hd)

/-! ## The registrations of one handle -/

theorem filter_handle_append_other {W : Type} (es : List (Entry W)) (e0 : Entry W) (b : Int)
    (h : e0.ID ≠ b) :
    (es ++ [e0]).filter (fun e => decide (e.ID = b)) = es.filter (fun e => decide (e.ID = b)) := by
  simp [List.filter_append, List.filter_cons, h]

theorem filter_handle_removed_other {W : Type} (es : List (Entry W)) (a b : Int) (h : b ≠ a) :
    (es.filter (fun e => decide (e.ID ≠ a))).filter (fun e => decide (e.ID = b))
      = es.filter (fun e => decide (e.ID = b)) := by
  rw [List.filter_filter]
  apply List.filter_congr
  intro e _
  by_cases hb : e.ID = b
  · subst hb
    simp [h]
  · simp [hb]

theorem filter_handle_fresh {W : Type} (es : List (Entry W)) (b : Int)
    (h : ∀ e ∈ es, e.ID ≠ b) : es.filter (fun e => decide (e.ID = b)) = [] := by
  rw [List.filter_eq_nil_iff]
  intro e he
  simpa using h e he

/-- What an accepted `UpdateSpec` does to the registrations of each handle. -/
theorem UpdateSpec_accepted_registrations {W : Type} (valid : String → Bool) (now : Int)
    (d : DynamicScheduler W) (name newSpec : String) (old : NamedFunc W) (hd : EngineInv d)
    (hget : mapGet d.Funcs name = some old) (hv : valid newSpec = true) :
    registrationsOf (UpdateSpec valid now d name newSpec).1.Cron (d.Cron.nextID + 1)
        = [{ ID := d.Cron.nextID + 1, Spec := newSpec,
             Job := wrapFunction old.Func old.Timeout }] ∧
      ∀ m cur, m ≠ name → mapGet d.Funcs m = some cur →
        registrationsOf (UpdateSpec valid now d name newSpec).1.Cron cur.ID
          = registrationsOf d.Cron cur.ID := by
  obtain ⟨hb, hdist, _, _⟩ := hd
  rw [UpdateSpec_of_accepted valid now d name newSpec old hget hv]
  constructor
  · simp only [registrationsOf, Engine.Remove, List.filter_append]
    rw [filter_handle_fresh]
    · simp
    · intro e he
      have := hb.2 e (List.mem_of_mem_filter he)
      omega
  · intro m cur hm hcur
    have h1 : cur.ID ≤ d.Cron.nextID := hb.1 (m, cur) (mem_of_mapGet _ _ _ hcur)
    have h2 : cur.ID ≠ old.ID := fun e => hm (hdist m name cur old hcur hget e)
    simp only [registrationsOf, Engine.Remove]
    rw [filter_handle_append_other _ _ _ (by show d.Cron.nextID + 1 ≠ cur.ID; omega)]
    exact filter_handle_removed_other _ _ _ h2

/-- A rejected `UpdateSpec` removes the registrations of the job and no other. -/
theorem UpdateSpec_rejected_registrations {W : Type} (valid : String → Bool) (now : Int)
    (d : DynamicScheduler W) (name newSpec : String) (old : NamedFunc W) (hd : EngineInv d)
    (hget : mapGet d.Funcs name = some old) (hv : valid newSpec = false) :
    old.ID ∉ activeHandles (UpdateSpec valid now d name newSpec).1.Cron ∧
      ∀ m cur, m ≠ name → mapGet d.Funcs m = some cur →
        registrationsOf (UpdateSpec valid now d name newSpec).1.Cron cur.ID
          = registrationsOf d.Cron cur.ID := by
  obtain ⟨_, hdist, _, _⟩ := hd
  rw [UpdateSpec_of_rejected valid now d name newSpec old hget hv]
  constructor
  · simp [activeHandles, Engine.Remove, List.mem_filter]
  · intro m cur hm hcur
    have h2 : cur.ID ≠ old.ID := fun e => hm (hdist m name cur old hcur hget e)
    simp only [registrationsOf, Engine.Remove]
    exact filter_handle_removed_other _ _ _ h2

/-- `RegisterFunc` leaves the registrations of every stored handle as they are. -/
theorem RegisterFunc_registrations {W : Type} (valid : String → Bool) (now : Int)
    (d : DynamicScheduler W) (nf : NamedFunc W) (hd : EngineInv d) (m : String)
    (cur : NamedFunc W) (hcur : mapGet d.Funcs m = some cur) :
    registrationsOf (RegisterFunc valid now d nf).1.Cron cur.ID
      = registrationsOf d.Cron cur.ID := by
  cases hget : mapGet d.Funcs nf.Name with
  | some old => rw [RegisterFunc_of_present valid now d nf old hget]
  | none =>
    cases hv : valid nf.Spec with
    | false => rw [RegisterFunc_of_rejected valid now d nf hget hv]; rfl
    | true =>
      rw [RegisterFunc_of_accepted valid now d nf hget hv]
      have h1 : cur.ID ≤ d.Cron.nextID := hd.1.1 (m, cur) (mem_of_mapGet _ _ _ hcur)
      simp only [registrationsOf]
      exact filter_handle_append_other _ _ _ (by show d.Cron.nextID + 1 ≠ cur.ID; omega)

/-- The entries of the registry under names other than the one a call is about. -/
theorem RegisterFunc_other_entry {W : Type} (valid : String → Bool) (now : Int)
    (d : DynamicScheduler W) (nf : NamedFunc W) (m : String) (hm : m ≠ nf.Name) :
    mapGet (RegisterFunc valid now d nf).1.Funcs m = mapGet d.Funcs m := by
  cases hget : mapGet d.Funcs nf.Name with
  | some old => rw [RegisterFunc_of_present valid now d nf old hget]
  | none =>
    cases hv : valid nf.Spec with
    | false => rw [RegisterFunc_of_rejected valid now d nf hget hv]
    | true =>
      rw [RegisterFunc_of_accepted valid now d nf hget hv]
      exact mapGet_mapSet_other _ _ _ _ hm

theorem UpdateSpec_other_entry {W : Type} (valid : String → Bool) (now : Int)
    (d : DynamicScheduler W) (name newSpec m : String) (hm : m ≠ name) :
    mapGet (UpdateSpec valid now d name newSpec).1.Funcs m = mapGet d.Funcs m := by
  cases hget : mapGet d.Funcs name with
  | none => rw [UpdateSpec_of_absent valid now d name newSpec hget]
  | some old =>
    cases hv : valid newSpec with
    | false => rw [UpdateSpec_of_rejected valid now d name newSpec old hget hv]
    | true =>
      rw [UpdateSpec_of_accepted valid now d name newSpec old hget hv]
      exact mapGet_mapSet_other _ _ _ _ hm

/-- A series of rejected updates of one job: its registry entry stays, its
handle is no longer live, and the other jobs keep their registrations. -/
theorem rejected_updates {W : Type} (valid : String → Bool) (name : String)
    (old : NamedFunc W) (bads : List (Int × String))
    (hbad : ∀ b ∈ bads, valid b.2 = false) (d : DynamicScheduler W) (hd : EngineInv d)
    (hget : mapGet d.Funcs name = some old) :
    EngineInv (runOps valid (bads.map (fun b => Op.update b.1 name b.2)) d) ∧
      (runOps valid (bads.map (fun b => Op.update b.1 name b.2)) d).Funcs = d.Funcs ∧
      (bads ≠ [] →
        old.ID ∉ activeHandles (runOps valid (bads.map (fun b => Op.update b.1 name b.2)) d).Cron) ∧
      (old.ID ∉ activeHandles d.Cron →
        old.ID ∉ activeHandles (runOps valid (bads.map (fun b => Op.update b.1 name b.2)) d).Cron) ∧
      ∀ m cur, m ≠ name → mapGet d.Funcs m = some cur →
        registrationsOf (runOps valid (bads.map (fun b => Op.update b.1 name b.2)) d).Cron cur.ID
          = registrationsOf d.Cron cur.ID := by
  induction bads generalizing d with
  | nil =>
    refine ⟨hd, rfl, ?_, fun h => h, fun _ _ _ _ => rfl⟩
    intro h
    exact absurd rfl h
  | cons b rest ih =>
    have hv : valid b.2 = false := hbad b (List.mem_cons_self _ _)
    have hrest : ∀ x ∈ rest, valid x.2 = false := fun x hx => hbad x (List.mem_cons_of_mem _ hx)
    have hinv := EngineInv_UpdateSpec valid b.1 d name b.2 hd
    have hreg := UpdateSpec_rejected_registrations valid b.1 d name b.2 old hd hget hv
    have hfuncs : (UpdateSpec valid b.1 d name b.2).1.Funcs = d.Funcs := by
      rw [UpdateSpec_of_rejected valid b.1 d name b.2 old hget hv]
    have hget1 : mapGet (UpdateSpec valid b.1 d name b.2).1.Funcs name = some old := by
      rw [hfuncs]; exact hget
    obtain ⟨i1, i2, _, i4, i5⟩ := ih hrest _ hinv hget1
    simp only [List.map_cons, runOps, Op.apply]
    refine ⟨i1, i2.trans hfuncs, fun _ => i4 hreg.1, fun _ => i4 hreg.1, ?_⟩
    intro m cur hm hcur
    rw [i5 m cur hm (by rw [hfuncs]; exact hcur)]
    exact hreg.2 m cur hm hcur

/-! ## The JSON encodings -/

theorem encodeNamedFunc_eq {W : Type} (nf : NamedFunc W) :
    encodeNamedFunc nf =
      [("id", JsonScalar.num nf.ID), ("name", JsonScalar.str nf.Name),
       ("description", JsonScalar.str nf.Description), ("spec", JsonScalar.str nf.Spec),
       ("timeout", JsonScalar.num nf.Timeout), ("updatedAt", JsonScalar.time nf.UpdatedAt)] := by
  simp [encodeNamedFunc, encodeStruct, NamedFunc.fields]

theorem MarshalJSON_eq {W : Type} (rank : String → Nat) (d : DynamicScheduler W) :
    MarshalJSON rank d =
      [("name", JsonValue.scalar (JsonScalar.str d.Name)),
       ("funcs", JsonValue.array ((ListFuncs rank d).map encodeNamedFunc))] := by
  simp [MarshalJSON, encodeStruct, DynamicScheduler.fields]

theorem String_eq {W : Type} (d : DynamicScheduler W) :
    d.String =
      [("name", JsonValue.scalar (JsonScalar.str d.Name)),
       ("funcs", JsonValue.object (encodeFuncsMap d.Funcs))] := by
  simp [DynamicScheduler.String, encodeStruct, DynamicScheduler.fields]

/-- A call makes no handle live except the next handle of the counter. -/
theorem activeHandles_apply {W : Type} (valid : String → Bool) (d : DynamicScheduler W)
    (op : Op W) (h : Int) (hh : h ∈ activeHandles (Op.apply valid d op).1.Cron) :
    h ∈ activeHandles d.Cron ∨ h = d.Cron.nextID + 1 := by
  cases op with
  | register now nf =>
    simp only [Op.apply] at hh
    cases hget : mapGet d.Funcs nf.Name with
    | some old =>
      rw [RegisterFunc_of_present valid now d nf old hget] at hh
      exact Or.inl hh
    | none =>
      cases hv : valid nf.Spec with
      | false =>
        rw [RegisterFunc_of_rejected valid now d nf hget hv] at hh
        exact Or.inl hh
      | true =>
        rw [RegisterFunc_of_accepted valid now d nf hget hv] at hh
        simp only [activeHandles, List.map_append, List.map_cons, List.map_nil,
          List.mem_append, List.mem_singleton] at hh
        exact hh
  | update now name newSpec =>
    simp only [Op.apply] at hh
    cases hget : mapGet d.Funcs name with
    | none =>
      rw [UpdateSpec_of_absent valid now d name newSpec hget] at hh
      exact Or.inl hh
    | some old =>
      have hsub : List.Sublist (Engine.Remove d.Cron old.ID).entries d.Cron.entries :=
        List.filter_sublist _
      cases hv : valid newSpec with
      | false =>
        rw [UpdateSpec_of_rejected valid now d name newSpec old hget hv] at hh
        exact Or.inl ((hsub.map Entry.ID).subset hh)
      | true =>
        rw [UpdateSpec_of_accepted valid now d name newSpec old hget hv] at hh
        simp only [activeHandles, List.map_append, List.map_cons, List.map_nil,
          List.mem_append, List.mem_singleton] at hh
        rcases hh with h1 | h1
        · exact Or.inl ((hsub.map Entry.ID).subset h1)
        · exact Or.inr h1

/-- A job whose stored handle is not live stays so, entry included, through
calls that are not an `UpdateSpec` of that job. -/
theorem stale_kept {W : Type} (valid : String → Bool) (name : String) (old : NamedFunc W)
    (later : List (Op W)) (hlater : ∀ op ∈ later, Op.notUpdateOf name op = true)
    (d : DynamicScheduler W) (hd : EngineInv d) (hget : mapGet d.Funcs name = some old)
    (hstale : old.ID ∉ activeHandles d.Cron) :
    EngineInv (runOps valid later d) ∧
      mapGet (runOps valid later d).Funcs name = some old ∧
      old.ID ∉ activeHandles (runOps valid later d).Cron := by
  induction later generalizing d with
  | nil => exact ⟨hd, hget, hstale⟩
  | cons op rest ih =>
    have hrest : ∀ x ∈ rest, Op.notUpdateOf name x = true :=
      fun x hx => hlater x (List.mem_cons_of_mem _ hx)
    have hop := hlater op (List.mem_cons_self _ _)
    have hbound : old.ID ≤ d.Cron.nextID := hd.1.1 (name, old) (mem_of_mapGet _ _ _ hget)
    have hstale1 : old.ID ∉ activeHandles (Op.apply valid d op).1.Cron := by
      intro hin
      rcases activeHandles_apply valid d op old.ID hin with h1 | h1
      · exact hstale h1
      · omega
    cases op with
    | register now nf =>
      exact ih hrest _ (EngineInv_RegisterFunc valid now d nf hd)
        (identity_RegisterFunc valid now d nf name old hget) hstale1
    | update now target newSpec =>
      have hne : name ≠ target := by
        intro e
        simp [Op.notUpdateOf, e] at hop
      have hget1 : mapGet (UpdateSpec valid now d target newSpec).1.Funcs name = some old := by
        rw [UpdateSpec_other_entry valid now d target newSpec name hne]
        exact hget
      exact ih hrest _ (EngineInv_UpdateSpec valid now d target newSpec hd) hget1 hstale1

/-! ## Reading back what was written: strings -/

theorem ofCodes_codes (s : String) : ofCodes (codes s) = s := by
  simp only [ofCodes, codes, List.map_map]
  have h : (Char.ofNat ∘ Char.toNat) = id := by
    funext c
    exact Char.ofNat_toNat c
  rw [h, List.map_id]

theorem hexValue_hexDigit (k : Nat) (hk : k < 16) : hexValue (hexDigit k) = some k := by
  unfold hexDigit hexValue
  by_cases h : k < 10
  · rw [if_pos h, if_pos (by omega)]
    congr 1
    omega
  · rw [if_neg h, if_neg (by omega), if_pos (by omega)]
    congr 1
    omega

theorem scanString_escapeCode (c : Nat) (tail : List Nat) :
    scanString ScanMode.plain (escapeCode c ++ tail)
      = (scanString ScanMode.plain tail).map (fun r => (c :: r.1, r.2)) := by
  unfold escapeCode
  split_ifs with h1 h2 h3 h4 h5 h6 h7 h8
  · subst h1
    simp [scanString, unescapeCode]
  · subst h2
    simp [scanString, unescapeCode]
  · subst h3
    simp [scanString, unescapeCode]
  · subst h4
    simp [scanString, unescapeCode]
  · subst h5
    simp [scanString, unescapeCode]
  · subst h6
    simp [scanString, unescapeCode]
  · subst h7
    simp [scanString, unescapeCode]
  · have hc : c < 65536 := by omega
    have e3 := hexValue_hexDigit (c / 4096 % 16) (Nat.mod_lt _ (by decide))
    have e2 := hexValue_hexDigit (c / 256 % 16) (Nat.mod_lt _ (by decide))
    have e1 := hexValue_hexDigit (c / 16 % 16) (Nat.mod_lt _ (by decide))
    have e0 := hexValue_hexDigit (c % 16) (Nat.mod_lt _ (by decide))
    have hval : ((c / 4096 % 16 * 16 + c / 256 % 16) * 16 + c / 16 % 16) * 16
        + c % 16 = c := by omega
    simp [scanString, e3, e2, e1, e0, hval]
  · simp [scanString, h1, h2]
    omega

theorem scanString_escape (l tail : List Nat) :
    scanString ScanMode.plain (l.flatMap escapeCode ++ 34 :: tail) = some (l, tail) := by
  induction l with
  | nil => simp [scanString]
  | cons c rest ih =>
    rw [List.flatMap_cons, List.append_assoc, scanString_escapeCode, ih]
    rfl

theorem parseString_renderString (s : String) (tail : List Nat) :
    parseString (renderString s ++ tail) = some (s, tail) := by
  simp only [renderString, escapeString, List.cons_append, List.append_assoc,
    List.singleton_append, parseString, if_true, scanString_escape, Option.map_some',
    ofCodes_codes, List.nil_append]

/-! ## Reading back what was written: numbers -/

theorem scanNat_end (v : Nat) (tail : List Nat) (h : endsNumber tail) :
    scanNat v tail = (v, tail) := by
  cases tail with
  | nil => rfl
  | cons c rest =>
    have := h c rest rfl
    simp [scanNat, this]

theorem scanNat_digitsAux (fuel : Nat) :
    ∀ (n : Nat) (acc tail : List Nat), n < fuel →
      scanNat 0 (digitsAux fuel n acc ++ tail) = scanNat n (acc ++ tail) := by
  induction fuel with
  | zero => intro n acc tail h; omega
  | succ fuel ih =>
    intro n acc tail h
    by_cases hn : n < 10
    · have hd : 48 ≤ 48 + n ∧ 48 + n ≤ 57 := by omega
      simp [digitsAux, hn, scanNat, hd]
    · have hlt : n / 10 < fuel := by omega
      have hd : 48 ≤ 48 + n % 10 ∧ 48 + n % 10 ≤ 57 := by omega
      have hval : n / 10 * 10 + n % 10 = n := by omega
      simp only [digitsAux, hn, if_false]
      rw [ih (n / 10) _ tail hlt]
      simp [scanNat, hd, hval]

theorem digitsAux_head (fuel : Nat) :
    ∀ (n : Nat) (acc : List Nat),
      (fuel = 0 → ∃ c rest, acc = c :: rest ∧ 48 ≤ c ∧ c ≤ 57) →
      ∃ c rest, digitsAux fuel n acc = c :: rest ∧ 48 ≤ c ∧ c ≤ 57 := by
  induction fuel with
  | zero => intro n acc h; simpa [digitsAux] using h rfl
  | succ fuel ih =>
    intro n acc _
    by_cases hn : n < 10
    · exact ⟨48 + n, acc, by simp [digitsAux, hn], by omega, by omega⟩
    · simp only [digitsAux, hn, if_false]
      apply ih
      intro _
      exact ⟨48 + n % 10, acc, rfl, by omega, by omega⟩

theorem parseNat_renderNat (n : Nat) (tail : List Nat) (h : endsNumber tail) :
    parseNat (renderNat n ++ tail) = some (n, tail) ∧
      ∃ c rest, renderNat n ++ tail = c :: rest ∧ 48 ≤ c ∧ c ≤ 57 := by
  obtain ⟨c, rest, hc, hd⟩ := digitsAux_head (n + 1) n [] (fun h0 => by omega)
  have hscan : scanNat 0 (renderNat n ++ tail) = (n, tail) := by
    simp only [renderNat]
    rw [scanNat_digitsAux (n + 1) n [] tail (by omega)]
    exact scanNat_end n tail h
  have hshape : renderNat n ++ tail = c :: (rest ++ tail) := by
    simp only [renderNat, hc, List.cons_append]
  refine ⟨?_, c, rest ++ tail, hshape, hd⟩
  rw [hshape] at hscan ⊢
  simp only [parseNat, hd, and_self, if_true, hscan]

theorem parseInt_renderInt (n : Int) (tail : List Nat) (h : endsNumber tail) :
    parseInt (renderInt n ++ tail) = some (n, tail) ∧
      ∃ c rest, renderInt n ++ tail = c :: rest ∧ c ≠ 34 := by
  obtain ⟨hparse, c, rest, hshape, hd⟩ := parseNat_renderNat n.natAbs tail h
  by_cases hneg : n < 0
  · have hval : -((n.natAbs : Nat) : Int) = n := by omega
    refine ⟨?_, 45, renderNat n.natAbs ++ tail, by simp [renderInt, hneg], by decide⟩
    simp only [renderInt, hneg, if_true, List.cons_append, parseInt, hparse, Option.map_some',
      hval]
  · have hval : ((n.natAbs : Nat) : Int) = n := by omega
    have hc : c ≠ 45 := by omega
    refine ⟨?_, c, rest, by simp [renderInt, hneg, hshape], by omega⟩
    simp only [renderInt, hneg, if_false]
    rw [hshape]
    simp only [parseInt, hc, if_false]
    rw [← hshape, hparse]
    simp only [Option.map_some', hval]

/-! ## Reading back what was written: objects -/

theorem parseScalar_renderScalar (fmtTime : Int → String) (v : JsonScalar) (tail : List Nat)
    (h : endsNumber tail) :
    parseScalar (renderScalar fmtTime v ++ tail) = some (readScalar fmtTime v, tail) := by
  cases v with
  | num n =>
    obtain ⟨hparse, c, rest, hshape, hc⟩ := parseInt_renderInt n tail h
    simp only [renderScalar, readScalar]
    rw [hshape]
    simp only [parseScalar, hc, if_false]
    rw [← hshape, hparse]
    rfl
  | str s =>
    have hp := parseString_renderString s tail
    simp only [renderScalar, readScalar]
    simp only [renderString, List.cons_append] at hp ⊢
    simp only [parseScalar, if_true, hp]
    rfl
  | time t =>
    have hp := parseString_renderString (fmtTime t) tail
    simp only [renderScalar, readScalar]
    simp only [renderString, List.cons_append] at hp ⊢
    simp only [parseScalar, if_true, hp]
    rfl

theorem endsNumber_comma (tail : List Nat) : endsNumber (44 :: tail) := by
  intro c rest h
  injection h with h1 _
  omega

theorem endsNumber_brace (tail : List Nat) : endsNumber (125 :: tail) := by
  intro c rest h
  injection h with h1 _
  omega

theorem parseMembers_render (fmtTime : Int → String) (ms : List (String × JsonScalar)) :
    ∀ (m : String × JsonScalar) (fuel : Nat) (tail : List Nat), ms.length < fuel →
      parseMembers fuel (joinComma ((m :: ms).map (renderMember fmtTime)) ++ 125 :: tail)
        = some (readObject fmtTime (m :: ms), tail) := by
  induction ms with
  | nil =>
    intro m fuel tail hfuel
    obtain ⟨k, rfl⟩ : ∃ k, fuel = k + 1 := ⟨fuel - 1, by omega⟩
    simp only [List.map_cons, List.map_nil, joinComma, renderMember, List.append_assoc,
      List.cons_append, parseMembers, parseString_renderString,
      parseScalar_renderScalar fmtTime m.2 _ (endsNumber_brace tail), readObject]
  | cons m2 rest ih =>
    intro m fuel tail hfuel
    obtain ⟨k, rfl⟩ : ∃ k, fuel = k + 1 := ⟨fuel - 1, by omega⟩
    have hk : rest.length < k := by
      simp only [List.length_cons] at hfuel
      omega
    have hrec := ih m2 k tail hk
    simp only [List.map_cons] at hrec
    simp only [List.map_cons, joinComma, renderMember, List.append_assoc,
      List.cons_append, parseMembers, parseString_renderString,
      parseScalar_renderScalar fmtTime m.2 _ (endsNumber_comma _)]
    simp only [renderMember] at hrec
    rw [hrec]
    simp [readObject]

theorem joinComma_head (c : Nat) (x : List Nat) (xs : List (List Nat)) :
    ∃ r, joinComma ((c :: x) :: xs) = c :: r := by
  cases xs with
  | nil => exact ⟨x, rfl⟩
  | cons y rest => exact ⟨x ++ 44 :: joinComma (y :: rest), rfl⟩

theorem renderMember_head (fmtTime : Int → String) (m : String × JsonScalar) :
    renderMember fmtTime m
      = 34 :: (escapeString m.1 ++ 34 :: 58 :: renderScalar fmtTime m.2) := by
  simp [renderMember, renderString]

theorem parseObject_render (fmtTime : Int → String) (o : JsonObject) (fuel : Nat)
    (tail : List Nat) (hfuel : o.length ≤ fuel) :
    parseObject fuel (renderObject fmtTime o ++ tail) = some (readObject fmtTime o, tail) := by
  cases o with
  | nil => simp [renderObject, joinComma, parseObject, readObject]
  | cons m ms =>
    have hlt : ms.length < fuel := by
      simp only [List.length_cons] at hfuel
      omega
    have hrec := parseMembers_render fmtTime ms m fuel tail hlt
    obtain ⟨r, hr⟩ := joinComma_head 34 _ (ms.map (renderMember fmtTime))
    have hjoin : joinComma ((m :: ms).map (renderMember fmtTime)) = 34 :: r := by
      rw [List.map_cons, renderMember_head]
      exact hr
    have htext : renderObject fmtTime (m :: ms) ++ tail = 123 :: 34 :: (r ++ 125 :: tail) := by
      simp only [renderObject, List.cons_append, List.append_assoc, List.singleton_append,
        hjoin, List.nil_append]
    rw [htext]
    simp only [parseObject]
    rw [hjoin] at hrec
    exact hrec

theorem renderObject_head (fmtTime : Int → String) (o : JsonObject) :
    renderObject fmtTime o = 123 :: (joinComma (o.map (renderMember fmtTime)) ++ [125]) :=
  rfl

theorem parseItems_render (fmtTime : Int → String) (bound : Nat) (os : List JsonObject) :
    ∀ (o : JsonObject) (fuel : Nat) (tail : List Nat),
      (∀ x ∈ o :: os, x.length ≤ bound) → os.length + bound < fuel →
      parseItems fuel (joinComma ((o :: os).map (renderObject fmtTime)) ++ 93 :: tail)
        = some ((o :: os).map (readObject fmtTime), tail) := by
  induction os with
  | nil =>
    intro o fuel tail hb hfuel
    obtain ⟨k, rfl⟩ : ∃ k, fuel = k + 1 := ⟨fuel - 1, by omega⟩
    have ho : o.length ≤ k := by
      have := hb o (List.mem_cons_self _ _)
      simp only [List.length_nil] at hfuel
      omega
    simp only [List.map_cons, List.map_nil, joinComma, parseItems,
      parseObject_render fmtTime o k (93 :: tail) ho]
  | cons o2 rest ih =>
    intro o fuel tail hb hfuel
    obtain ⟨k, rfl⟩ : ∃ k, fuel = k + 1 := ⟨fuel - 1, by omega⟩
    simp only [List.length_cons] at hfuel
    have ho : o.length ≤ k := by
      have := hb o (List.mem_cons_self _ _)
      omega
    have hrec := ih o2 k tail (fun x hx => hb x (List.mem_cons_of_mem _ hx)) (by omega)
    simp only [List.map_cons] at hrec
    simp only [List.map_cons, joinComma, List.append_assoc, List.cons_append, parseItems,
      parseObject_render fmtTime o k _ ho]
    rw [hrec]
    rfl

theorem parseValue_array (fmtTime : Int → String) (bound : Nat) (items : List JsonObject)
    (fuel : Nat) (tail : List Nat) (hb : ∀ x ∈ items, x.length ≤ bound)
    (hfuel : items.length + bound ≤ fuel) :
    parseValue fuel (renderValue fmtTime (JsonValue.array items) ++ tail)
      = some (JsonValue.array (items.map (readObject fmtTime)), tail) := by
  cases items with
  | nil => simp [renderValue, renderArray, joinComma, parseValue]
  | cons o os =>
    have hrec := parseItems_render fmtTime bound os o fuel tail hb (by
      simp only [List.length_cons] at hfuel
      omega)
    obtain ⟨r, hr⟩ := joinComma_head 123 _ (os.map (renderObject fmtTime))
    have hjoin : joinComma ((o :: os).map (renderObject fmtTime)) = 123 :: r := by
      rw [List.map_cons, renderObject_head]
      exact hr
    have htext : renderValue fmtTime (JsonValue.array (o :: os)) ++ tail
        = 91 :: 123 :: (r ++ 93 :: tail) := by
      simp only [renderValue, renderArray, List.cons_append, List.append_assoc,
        List.singleton_append, hjoin, List.nil_append]
    rw [htext]
    simp only [parseValue]
    rw [hjoin] at hrec
    simp only [List.cons_append] at hrec
    rw [hrec]
    rfl

theorem parseValue_string (fmtTime : Int → String) (s : String) (fuel : Nat)
    (tail : List Nat) :
    parseValue fuel (renderValue fmtTime (JsonValue.scalar (JsonScalar.str s)) ++ tail)
      = some (JsonValue.scalar (JsonScalar.str s), tail) := by
  have hp := parseString_renderString s tail
  simp only [renderValue, renderScalar]
  simp only [renderString, List.cons_append] at hp ⊢
  simp only [parseValue, parseScalar, if_true, hp]
  rfl

theorem length_joinComma (parts : List (List Nat)) (h : ∀ p ∈ parts, 1 ≤ p.length) :
    parts.length ≤ (joinComma parts).length := by
  induction parts with
  | nil => simp
  | cons x rest ih =>
    cases rest with
    | nil =>
      have := h x (List.mem_cons_self _ _)
      simpa [joinComma] using this
    | cons y more =>
      have hrec := ih (fun p hp => h p (List.mem_cons_of_mem _ hp))
      simp only [joinComma, List.length_append, List.length_cons] at hrec ⊢
      omega

theorem parseTop_two (key1 key2 : String) (v1 v2 : JsonValue) (text1 text2 : List Nat)
    (k : Nat)
    (h1 : parseValue (k + 1) (text1 ++ 44 :: (renderString key2 ++ 58 :: (text2 ++ [125])))
      = some (v1, 44 :: (renderString key2 ++ 58 :: (text2 ++ [125]))))
    (h2 : parseValue k (text2 ++ [125]) = some (v2, [125])) :
    parseTop (k + 2)
        (renderString key1 ++ 58 :: (text1 ++ 44 :: (renderString key2 ++ 58 :: (text2 ++ [125]))))
      = some ([(key1, v1), (key2, v2)], []) := by
  simp only [parseTop, parseString_renderString, h1, h2]
  rfl

theorem parseDocument_body (r : List Nat) :
    parseDocument (123 :: 34 :: r)
      = match parseTop (r.length + 2) (34 :: r) with
        | some (doc, []) => some doc
        | _ => none := by
  simp [parseDocument]

theorem parseDocument_snapshot (fmtTime : Int → String) (name : String)
    (items : List JsonObject) (hb : ∀ x ∈ items, x.length ≤ 6) :
    parseDocument (renderDocument fmtTime
        [("name", JsonValue.scalar (JsonScalar.str name)), ("funcs", JsonValue.array items)])
      = some [("name", JsonValue.scalar (JsonScalar.str name)),
              ("funcs", JsonValue.array (items.map (readObject fmtTime)))] := by
  have hjoin : items.length ≤ (joinComma (items.map (renderObject fmtTime))).length := by
    have := length_joinComma (items.map (renderObject fmtTime)) (by
      intro p hp
      obtain ⟨o, _, rfl⟩ := List.mem_map.1 hp
      simp [renderObject])
    simpa using this
  obtain ⟨r, hr, hlen⟩ : ∃ r, renderString "name" ++ 58 ::
      (renderValue fmtTime (JsonValue.scalar (JsonScalar.str name)) ++
        44 :: (renderString "funcs" ++ 58 ::
          (renderValue fmtTime (JsonValue.array items) ++ [125]))) = 34 :: r ∧
      items.length + 6 ≤ r.length := by
    refine ⟨escapeString "name" ++ 34 :: 58 ::
      (renderValue fmtTime (JsonValue.scalar (JsonScalar.str name)) ++
        44 :: (renderString "funcs" ++ 58 ::
          (renderValue fmtTime (JsonValue.array items) ++ [125]))), ?_, ?_⟩
    · simp [renderString]
    · simp only [renderValue, renderArray, renderScalar, renderString, List.length_cons,
        List.length_append, List.length_nil]
      omega
  have htext : renderDocument fmtTime
      [("name", JsonValue.scalar (JsonScalar.str name)), ("funcs", JsonValue.array items)]
      = 123 :: 34 :: r := by
    rw [← hr]
    simp [renderDocument, joinComma]
  have harr := parseValue_array fmtTime 6 items r.length [125] hb hlen
  have hstr := parseValue_string fmtTime name (r.length + 1)
    (44 :: (renderString "funcs" ++ 58 :: (renderValue fmtTime (JsonValue.array items) ++ [125])))
  have htop := parseTop_two "name" "funcs" _ _ _ _ r.length hstr harr
  rw [htext, parseDocument_body, ← hr, htop]

/-! ## Decoding what was read -/

theorem decode_read_encodeNamedFunc {W : Type} (fmtTime : Int → String)
    (parseTime : String → Option Int) (nf : NamedFunc W)
    (htime : parseTime (fmtTime nf.UpdatedAt) = some nf.UpdatedAt) :
    decodeNamedFunc parseTime (readObject fmtTime (encodeNamedFunc nf))
      = some ({ nf with Func := none } : NamedFunc W) := by
  rw [encodeNamedFunc_eq]
  simp [decodeNamedFunc, decodeInt, decodeString, decodeTime, mapGet, readObject, readScalar,
    htime]

theorem decode_read_encodeNamedFuncs {W : Type} (fmtTime : Int → String)
    (parseTime : String → Option Int) (nfs : List (NamedFunc W))
    (htime : ∀ nf ∈ nfs, parseTime (fmtTime nf.UpdatedAt) = some nf.UpdatedAt) :
    decodeNamedFuncs parseTime ((nfs.map encodeNamedFunc).map (readObject fmtTime))
      = some (nfs.map (fun nf => ({ nf with Func := none } : NamedFunc W))) := by
  induction nfs with
  | nil => rfl
  | cons nf rest ih =>
    have h1 := decode_read_encodeNamedFunc fmtTime parseTime nf
      (htime nf (List.mem_cons_self _ _))
    have h2 := ih (fun x hx => htime x (List.mem_cons_of_mem _ hx))
    simp only [List.map_cons, decodeNamedFuncs, h1, h2]

theorem unmarshal_marshalText {W : Type} (fmtTime : Int → String)
    (parseTime : String → Option Int) (rank : String → Nat) (d : DynamicScheduler W)
    (htime : ∀ nf ∈ ListFuncs rank d, parseTime (fmtTime nf.UpdatedAt) = some nf.UpdatedAt) :
    unmarshalSnapshot parseTime (marshalText fmtTime rank d)
      = some (d.Name,
          (ListFuncs rank d).map (fun nf => ({ nf with Func := none } : NamedFunc W))) := by
  have hb : ∀ x ∈ (ListFuncs rank d).map encodeNamedFunc, x.length ≤ 6 := by
    intro x hx
    obtain ⟨nf, _, rfl⟩ := List.mem_map.1 hx
    rw [encodeNamedFunc_eq]
    simp
  simp only [unmarshalSnapshot, marshalText, MarshalJSON_eq,
    parseDocument_snapshot fmtTime d.Name _ hb]
  have hdec := decode_read_encodeNamedFuncs fmtTime parseTime _ htime
  have hne : ¬ ("name" = "funcs") := by decide
  simp only [decodeSnapshot, mapGet, if_true, if_neg hne, hdec]

/-! ## Where a string stands in the text -/

theorem infix_joinComma (parts : List (List Nat)) (x : List Nat) (h : x ∈ parts) :
    x <:+: joinComma parts := by
  induction parts with
  | nil => simp at h
  | cons y rest ih =>
    cases rest with
    | nil =>
      have hx : x = y := by simpa using h
      subst hx
      exact List.infix_refl _
    | cons z more =>
      rcases List.mem_cons.1 h with hx | hx
      · subst hx
        exact ⟨[], 44 :: joinComma (z :: more), by simp [joinComma]⟩
      · obtain ⟨pre, post, hpp⟩ := ih hx
        refine ⟨y ++ 44 :: pre, post, ?_⟩
        simp only [joinComma, List.append_assoc, List.cons_append] at hpp ⊢
        rw [← hpp]

theorem renderString_infix_member (fmtTime : Int → String) (key s : String) :
    renderString s <:+: renderMember fmtTime (key, JsonScalar.str s) :=
  ⟨renderString key ++ [58], [], by simp [renderMember, renderScalar]⟩

theorem member_infix_object (fmtTime : Int → String) (o : JsonObject)
    (m : String × JsonScalar) (h : m ∈ o) :
    renderMember fmtTime m <:+: renderObject fmtTime o := by
  obtain ⟨pre, post, hpp⟩ := infix_joinComma (o.map (renderMember fmtTime))
    (renderMember fmtTime m) (List.mem_map.2 ⟨m, h, rfl⟩)
  refine ⟨123 :: pre, post ++ [125], ?_⟩
  simp only [renderObject, ← hpp, List.cons_append, List.append_assoc]

theorem object_infix_document (fmtTime : Int → String) (name : String)
    (items : List JsonObject) (o : JsonObject) (h : o ∈ items) :
    renderObject fmtTime o <:+: renderDocument fmtTime
      [("name", JsonValue.scalar (JsonScalar.str name)), ("funcs", JsonValue.array items)] := by
  obtain ⟨pre, post, hpp⟩ := infix_joinComma (items.map (renderObject fmtTime))
    (renderObject fmtTime o) (List.mem_map.2 ⟨o, h, rfl⟩)
  refine ⟨123 :: (renderString "name" ++ 58 :: (renderString name ++
    44 :: (renderString "funcs" ++ 58 :: 91 :: pre))), post ++ [93, 125], ?_⟩
  simp only [renderDocument, List.map_cons, List.map_nil, joinComma, renderValue, renderArray,
    renderScalar, ← hpp, List.cons_append, List.append_assoc, List.singleton_append,
    List.nil_append]

theorem name_infix_document (fmtTime : Int → String) (name : String)
    (items : List JsonObject) :
    renderString name <:+: renderDocument fmtTime
      [("name", JsonValue.scalar (JsonScalar.str name)), ("funcs", JsonValue.array items)] := by
  refine ⟨123 :: (renderString "name" ++ [58]),
    44 :: (renderString "funcs" ++ 58 :: renderArray fmtTime items) ++ [125], ?_⟩
  simp only [renderDocument, List.map_cons, List.map_nil, joinComma, renderValue,
    renderScalar, List.cons_append, List.append_assoc, List.singleton_append,
    List.nil_append]

theorem codes_infix_renderString (s : String) (hplain : plainString s) :
    codes s <:+: renderString s := by
  have hesc : escapeString s = codes s := by
    unfold escapeString
    have : ∀ l : List Nat, (∀ c ∈ l, escapeCode c = [c]) → l.flatMap escapeCode = l := by
      intro l
      induction l with
      | nil => intro _; rfl
      | cons c rest ih =>
        intro h
        rw [List.flatMap_cons, h c (List.mem_cons_self _ _),
          ih (fun x hx => h x (List.mem_cons_of_mem _ hx))]
        rfl
    exact this _ hplain
  exact ⟨[34], [34], by simp [renderString, hesc]⟩

/-! ## Every order of the map is an order of `ListFuncs` -/

/-- Every order of the entries of a registry map is the order in which
`ListFuncs` returns them for some ranking of the keys. -/
theorem ListFuncs_any_order {W : Type} (d : DynamicScheduler W)
    (hn : (mapKeys d.Funcs).Nodup) (target : List (String × NamedFunc W))
    (hperm : List.Perm target d.Funcs) :
    ∃ rank : String → Nat, ListFuncs rank d = target.map Prod.snd := by
  have hkeys : (mapKeys target).Nodup := (hperm.map Prod.fst).nodup_iff.2 hn
  refine ⟨fun k => (mapKeys target).indexOf k, ?_⟩
  have hsortedT : target.Pairwise
      (fun a b => (mapKeys target).indexOf a.1 ≤ (mapKeys target).indexOf b.1) := by
    rw [List.pairwise_iff_getElem]
    intro i j hi hj hij
    have hi2 : i < (mapKeys target).length := by simpa [mapKeys] using hi
    have hj2 : j < (mapKeys target).length := by simpa [mapKeys] using hj
    have e1 := List.indexOf_getElem hkeys i hi2
    have e2 := List.indexOf_getElem hkeys j hj2
    have k1 : (mapKeys target)[i] = target[i].1 := by simp [mapKeys]
    have k2 : (mapKeys target)[j] = target[j].1 := by simp [mapKeys]
    rw [k1] at e1
    rw [k2] at e2
    show (mapKeys target).indexOf target[i].1 ≤ (mapKeys target).indexOf target[j].1
    omega
  haveI : IsTotal (String × NamedFunc W)
      (fun a b => (mapKeys target).indexOf a.1 ≤ (mapKeys target).indexOf b.1) :=
    ⟨fun a b => le_total _ _⟩
  haveI : IsTrans (String × NamedFunc W)
      (fun a b => (mapKeys target).indexOf a.1 ≤ (mapKeys target).indexOf b.1) :=
    ⟨fun a b c h1 h2 => le_trans h1 h2⟩
  have hsortedS := List.sorted_insertionSort
    (fun a b : String × NamedFunc W =>
      (mapKeys target).indexOf a.1 ≤ (mapKeys target).indexOf b.1) d.Funcs
  have hpermS := List.perm_insertionSort
    (fun a b : String × NamedFunc W =>
      (mapKeys target).indexOf a.1 ≤ (mapKeys target).indexOf b.1) d.Funcs
  have heq : List.insertionSort
      (fun a b : String × NamedFunc W =>
        (mapKeys target).indexOf a.1 ≤ (mapKeys target).indexOf b.1) d.Funcs = target := by
    apply List.Perm.eq_of_sorted _ hsortedS hsortedT (hpermS.trans hperm.symm)
    intro a b ha hb hab hba
    have ha2 : a ∈ target := hperm.mem_iff.2 (hpermS.mem_iff.1 ha)
    have hka : a.1 ∈ mapKeys target := List.mem_map.2 ⟨a, ha2, rfl⟩
    have hkb : b.1 ∈ mapKeys target := List.mem_map.2 ⟨b, hb, rfl⟩
    have hk : a.1 = b.1 := (List.indexOf_inj hka hkb).1 (le_antisymm hab hba)
    have g1 := mapGet_of_mem target a.1 a.2 hkeys ha2
    have g2 := mapGet_of_mem target b.1 b.2 hkeys hb
    rw [hk] at g1
    exact Prod.ext hk (Option.some.inj (g1.symm.trans g2))
  simp only [ListFuncs, heq]

/-! ## RegisterFunc -/

/-- C1: when the name of the job is already in the registry, whatever its spec,
`RegisterFunc` returns the already-registered error and the scheduler after the
call is the scheduler before it: same registry map, same engine (its record of
received calls has no new `AddFunc` or `Remove`), and `GetFunc` still answers
with the first registration. -/
theorem RegisterFunc_duplicate {W : Type} (valid : String → Bool) (now : Int)
    (d : DynamicScheduler W) (nf : NamedFunc W)
    (hpresent : (mapGet d.Funcs nf.Name).isSome = true) :
    RegisterFunc valid now d nf = (d, some (SchedError.alreadyRegistered nf.Name)) ∧
      (RegisterFunc valid now d nf).1.Funcs = d.Funcs ∧
      (RegisterFunc valid now d nf).1.Cron = d.Cron ∧
      (RegisterFunc valid now d nf).1.Cron.calls = d.Cron.calls ∧
      GetFunc (RegisterFunc valid now d nf).1 nf.Name = GetFunc d nf.Name := by
  have hreg : RegisterFunc valid now d nf
      = (d, some (SchedError.alreadyRegistered nf.Name)) := by
    unfold RegisterFunc
    cases hget : mapGet d.Funcs nf.Name with
    | none => rw [hget] at hpresent; simp at hpresent
    | some old => rfl
  rw [hreg]
  exact ⟨rfl, rfl, rfl, rfl, rfl⟩

/-- Witness of C1: registering `test_func` a second time, now with a bad spec. -/
theorem RegisterFunc_duplicate_witness :
    (mapGet sampleRegistered.Funcs "test_func").isSome = true ∧
      RegisterFunc sampleValid 20 sampleRegistered { sampleJob with Spec := "invalid-spec" }
        = (sampleRegistered, some (SchedError.alreadyRegistered "test_func")) :=
  ⟨by decide,
    (RegisterFunc_duplicate sampleValid 20 sampleRegistered
      { sampleJob with Spec := "invalid-spec" } (by decide)).1⟩

/-- C2: when the name is absent and the engine rejects the spec, `RegisterFunc`
returns the invalid-cron-spec error, the registry map (and with it the
live registrations of the engine) is unchanged, and `GetFunc` for the name
reports not-found. -/
theorem RegisterFunc_invalidSpec {W : Type} (valid : String → Bool) (now : Int)
    (d : DynamicScheduler W) (nf : NamedFunc W)
    (habsent : mapGet d.Funcs nf.Name = none) (hrejected : valid nf.Spec = false) :
    (RegisterFunc valid now d nf).2 = some SchedError.invalidCronSpec ∧
      (RegisterFunc valid now d nf).1.Funcs = d.Funcs ∧
      (RegisterFunc valid now d nf).1.Cron.entries = d.Cron.entries ∧
      GetFunc (RegisterFunc valid now d nf).1 nf.Name = (NamedFunc.zero, false) := by
  rw [RegisterFunc_of_rejected valid now d nf habsent hrejected]
  refine ⟨rfl, rfl, rfl, ?_⟩
  simp [GetFunc, habsent]

/-- Witness of C2: registering `invalid-spec` on a new scheduler. -/
theorem RegisterFunc_invalidSpec_witness :
    mapGet (NewDynamicScheduler "test" : DynamicScheduler Nat).Funcs "test_func" = none ∧
      sampleValid "invalid-spec" = false ∧
      (RegisterFunc sampleValid 10 (NewDynamicScheduler "test")
        { sampleJob with Spec := "invalid-spec" }).2 = some SchedError.invalidCronSpec ∧
      GetFunc (RegisterFunc sampleValid 10 (NewDynamicScheduler "test")
        { sampleJob with Spec := "invalid-spec" }).1 "test_func" = (NamedFunc.zero, false) :=
  ⟨by decide, by decide,
    (RegisterFunc_invalidSpec sampleValid 10 (NewDynamicScheduler "test")
      { sampleJob with Spec := "invalid-spec" } (by decide) (by decide)).1,
    (RegisterFunc_invalidSpec sampleValid 10 (NewDynamicScheduler "test")
      { sampleJob with Spec := "invalid-spec" } (by decide) (by decide)).2.2.2⟩

/-- C3: when the name is absent and the engine accepts the spec, `RegisterFunc`
returns no error, the engine is the one left by the installation, and
`GetFunc` finds the supplied job with its handle set to the handle that the
engine returned and its `UpdatedAt` set to the time of the call. -/
theorem RegisterFunc_success {W : Type} (valid : String → Bool) (now : Int)
    (d : DynamicScheduler W) (nf : NamedFunc W)
    (habsent : mapGet d.Funcs nf.Name = none) (haccepted : valid nf.Spec = true) :
    ∃ id : Int,
      (Engine.AddFunc valid d.Cron nf.Spec (wrapFunction nf.Func nf.Timeout)).2 = some id ∧
      (RegisterFunc valid now d nf).2 = none ∧
      (RegisterFunc valid now d nf).1.Cron
        = (Engine.AddFunc valid d.Cron nf.Spec (wrapFunction nf.Func nf.Timeout)).1 ∧
      GetFunc (RegisterFunc valid now d nf).1 nf.Name
        = ({ nf with ID := id, UpdatedAt := now }, true) := by
  refine ⟨d.Cron.nextID + 1, ?_, ?_, ?_, ?_⟩
  · simp [Engine.AddFunc, haccepted]
  · simp [RegisterFunc, habsent, Engine.AddFunc, haccepted]
  · simp [RegisterFunc, habsent, Engine.AddFunc, haccepted]
  · simp [RegisterFunc, habsent, Engine.AddFunc, haccepted, GetFunc, mapGet_mapSet_same]

/-- Witness of C3: the first registration on a new scheduler gets handle 1. -/
theorem RegisterFunc_success_witness :
    mapGet (NewDynamicScheduler "test" : DynamicScheduler Nat).Funcs "test_func" = none ∧
      sampleValid "* * * * * *" = true ∧
      ∃ id : Int,
        (Engine.AddFunc sampleValid (NewDynamicScheduler "test" : DynamicScheduler Nat).Cron
          sampleJob.Spec (wrapFunction sampleJob.Func sampleJob.Timeout)).2 = some id ∧
        (RegisterFunc sampleValid 10 (NewDynamicScheduler "test") sampleJob).2 = none ∧
        (RegisterFunc sampleValid 10 (NewDynamicScheduler "test") sampleJob).1.Cron
          = (Engine.AddFunc sampleValid (NewDynamicScheduler "test" : DynamicScheduler Nat).Cron
              sampleJob.Spec (wrapFunction sampleJob.Func sampleJob.Timeout)).1 ∧
        GetFunc (RegisterFunc sampleValid 10 (NewDynamicScheduler "test") sampleJob).1
            sampleJob.Name
          = ({ sampleJob with ID := id, UpdatedAt := 10 }, true) :=
  ⟨by decide, by decide,
    RegisterFunc_success sampleValid 10 (NewDynamicScheduler "test") sampleJob
      (by decide) (by decide)⟩

/-! ## UpdateSpec -/

/-- C4: on a name that is not in the registry, `UpdateSpec` returns the
not-found error for every new spec, and the scheduler after the call is the
scheduler before it: the engine is unchanged, its record of received calls
has no new `Remove` or `AddFunc`, and the registry map is unchanged. -/
theorem UpdateSpec_notFound {W : Type} (valid : String → Bool) (now : Int)
    (d : DynamicScheduler W) (name newSpec : String)
    (habsent : mapGet d.Funcs name = none) :
    UpdateSpec valid now d name newSpec = (d, some (SchedError.notFound name)) ∧
      (UpdateSpec valid now d name newSpec).1.Cron = d.Cron ∧
      (UpdateSpec valid now d name newSpec).1.Cron.calls = d.Cron.calls ∧
      (UpdateSpec valid now d name newSpec).1.Funcs = d.Funcs := by
  have hupd : UpdateSpec valid now d name newSpec
      = (d, some (SchedError.notFound name)) := by
    simp [UpdateSpec, habsent]
  rw [hupd]
  exact ⟨rfl, rfl, rfl, rfl⟩

/-- Witness of C4: updating `nonexistent` on a new scheduler. -/
theorem UpdateSpec_notFound_witness :
    mapGet (NewDynamicScheduler "test" : DynamicScheduler Nat).Funcs "nonexistent" = none ∧
      UpdateSpec sampleValid 10 (NewDynamicScheduler "test" : DynamicScheduler Nat)
          "nonexistent" "* * * * * *"
        = (NewDynamicScheduler "test", some (SchedError.notFound "nonexistent")) :=
  ⟨by decide,
    (UpdateSpec_notFound sampleValid 10 (NewDynamicScheduler "test") "nonexistent"
      "* * * * * *" (by decide)).1⟩

/-- C5: on a registered name with a new spec that the engine rejects,
`UpdateSpec` returns the invalid-new-spec error, the registry map is the one
before the call, and `GetFunc` still returns the stored job, original spec
included. -/
theorem UpdateSpec_invalidSpec {W : Type} (valid : String → Bool) (now : Int)
    (d : DynamicScheduler W) (name newSpec : String) (nf : NamedFunc W)
    (hpresent : mapGet d.Funcs name = some nf) (hrejected : valid newSpec = false) :
    (UpdateSpec valid now d name newSpec).2 = some SchedError.invalidNewSpec ∧
      (UpdateSpec valid now d name newSpec).1.Funcs = d.Funcs ∧
      GetFunc (UpdateSpec valid now d name newSpec).1 name = (nf, true) ∧
      (GetFunc (UpdateSpec valid now d name newSpec).1 name).1.Spec = nf.Spec := by
  rw [UpdateSpec_of_rejected valid now d name newSpec nf hpresent hrejected]
  simp [GetFunc, hpresent]

/-- Witness of C5: a rejected update of `test_func` keeps its registry entry. -/
theorem UpdateSpec_invalidSpec_witness :
    mapGet sampleRegistered.Funcs "test_func"
        = some { sampleJob with ID := 1, UpdatedAt := 10 } ∧
      sampleValid "invalid-spec" = false ∧
      (UpdateSpec sampleValid 20 sampleRegistered "test_func" "invalid-spec").2
        = some SchedError.invalidNewSpec ∧
      GetFunc (UpdateSpec sampleValid 20 sampleRegistered "test_func" "invalid-spec").1
          "test_func"
        = ({ sampleJob with ID := 1, UpdatedAt := 10 }, true) :=
  ⟨by decide, by decide,
    (UpdateSpec_invalidSpec sampleValid 20 sampleRegistered "test_func" "invalid-spec"
      { sampleJob with ID := 1, UpdatedAt := 10 } (by decide) (by decide)).1,
    (UpdateSpec_invalidSpec sampleValid 20 sampleRegistered "test_func" "invalid-spec"
      { sampleJob with ID := 1, UpdatedAt := 10 } (by decide) (by decide)).2.2.1⟩

/-- C6: the invariant that every registry job has exactly one live engine
registration under its stored handle and stored spec does not survive a
rejected `UpdateSpec`.  After `RegisterFunc` of `test_func` (handle 1) the
invariant holds; the call `UpdateSpec("test_func", "invalid-spec")` returns the
invalid-new-spec error, the registry still shows the job with handle 1 and its
original spec, and the engine has no live registration left. -/
theorem UpdateSpec_rejected_unschedules_job :
    (RegisterFunc sampleValid 10 (NewDynamicScheduler "test") sampleJob).2 = none ∧
      allScheduled sampleRegistered = true ∧
      (UpdateSpec sampleValid 20 sampleRegistered "test_func" "invalid-spec").2
        = some SchedError.invalidNewSpec ∧
      GetFunc (UpdateSpec sampleValid 20 sampleRegistered "test_func" "invalid-spec").1
          "test_func"
        = ({ sampleJob with ID := 1, UpdatedAt := 10 }, true) ∧
      activeHandles (UpdateSpec sampleValid 20 sampleRegistered "test_func" "invalid-spec").1.Cron
        = [] ∧
      allScheduled (UpdateSpec sampleValid 20 sampleRegistered "test_func" "invalid-spec").1
        = false := by
  decide

/-- C7: in a scheduler reached from a new one by any calls, `UpdateSpec` of a
registered name with a spec that the engine accepts returns no error; `GetFunc`
then returns the job with the new spec and with the handle that the engine
issued for the new installation; that handle differs from the prior one, is
live in the engine, and the prior handle is no longer live. -/
theorem UpdateSpec_success {W : Type} (valid : String → Bool) (schedName : String)
    (ops : List (Op W)) (now : Int) (d : DynamicScheduler W) (name newSpec : String)
    (old : NamedFunc W)
    (hreach : d = runOps valid ops (NewDynamicScheduler schedName))
    (hpresent : mapGet d.Funcs name = some old) (haccepted : valid newSpec = true) :
    ∃ id : Int,
      (Engine.AddFunc valid (Engine.Remove d.Cron old.ID) newSpec
        (wrapFunction old.Func old.Timeout)).2 = some id ∧
      (UpdateSpec valid now d name newSpec).2 = none ∧
      GetFunc (UpdateSpec valid now d name newSpec).1 name
        = ({ old with ID := id, Spec := newSpec, UpdatedAt := now }, true) ∧
      id ≠ old.ID ∧
      id ∈ activeHandles (UpdateSpec valid now d name newSpec).1.Cron ∧
      old.ID ∉ activeHandles (UpdateSpec valid now d name newSpec).1.Cron := by
  have hb : HandlesBounded d := by
    rw [hreach]
    exact HandlesBounded_runOps valid ops _ (HandlesBounded_new schedName)
  have hold : old.ID ≤ d.Cron.nextID := hb.1 (name, old) (mem_of_mapGet _ _ _ hpresent)
  have hne : d.Cron.nextID + 1 ≠ old.ID := by omega
  refine ⟨d.Cron.nextID + 1, ?_, ?_, ?_, hne, ?_, ?_⟩
  · simp [Engine.AddFunc, haccepted, Engine.Remove]
  · rw [UpdateSpec_of_accepted valid now d name newSpec old hpresent haccepted]
  · rw [UpdateSpec_of_accepted valid now d name newSpec old hpresent haccepted]
    simp [GetFunc, mapGet_mapSet_same]
  · rw [UpdateSpec_of_accepted valid now d name newSpec old hpresent haccepted]
    simp [activeHandles]
  · rw [UpdateSpec_of_accepted valid now d name newSpec old hpresent haccepted]
    simp only [activeHandles, Engine.Remove, List.map_append, List.map_cons, List.map_nil,
      List.mem_append, List.mem_map, List.mem_filter, List.mem_singleton]
    rintro (⟨e, ⟨_, he⟩, heq⟩ | heq)
    · simp [heq] at he
    · exact hne heq.symm

/-- Witness of C7: rescheduling `test_func` right after its registration. -/
theorem UpdateSpec_success_witness :
    sampleRegistered = runOps sampleValid [Op.register 10 sampleJob] (NewDynamicScheduler "test") ∧
      mapGet sampleRegistered.Funcs "test_func"
        = some { sampleJob with ID := 1, UpdatedAt := 10 } ∧
      sampleValid "*/2 * * * * *" = true ∧
      ∃ id : Int,
        (Engine.AddFunc sampleValid (Engine.Remove sampleRegistered.Cron 1) "*/2 * * * * *"
          (wrapFunction sampleJob.Func sampleJob.Timeout)).2 = some id ∧
        (UpdateSpec sampleValid 20 sampleRegistered "test_func" "*/2 * * * * *").2 = none ∧
        GetFunc (UpdateSpec sampleValid 20 sampleRegistered "test_func" "*/2 * * * * *").1
            "test_func"
          = ({ sampleJob with ID := id, Spec := "*/2 * * * * *", UpdatedAt := 20 }, true) ∧
        id ≠ 1 ∧
        id ∈ activeHandles
          (UpdateSpec sampleValid 20 sampleRegistered "test_func" "*/2 * * * * *").1.Cron ∧
        (1 : Int) ∉ activeHandles
          (UpdateSpec sampleValid 20 sampleRegistered "test_func" "*/2 * * * * *").1.Cron :=
  ⟨by decide, by decide, by decide,
    UpdateSpec_success sampleValid "test" [Op.register 10 sampleJob] 20 sampleRegistered
      "test_func" "*/2 * * * * *" { sampleJob with ID := 1, UpdatedAt := 10 }
      (by decide) (by decide) (by decide)⟩

/-- C8, as stated, fails: `test_func` is registered at clock reading 10 and
rescheduled successfully by a call that reads the clock at 10 again; its
`UpdatedAt` is 10 before and 10 after, not strictly greater. -/
theorem UpdateSpec_updatedAt_not_strict :
    (GetFunc sampleRegistered "test_func").1.UpdatedAt = 10 ∧
      (UpdateSpec sampleValid 10 sampleRegistered "test_func" "*/2 * * * * *").2 = none ∧
      (GetFunc (UpdateSpec sampleValid 10 sampleRegistered "test_func" "*/2 * * * * *").1
        "test_func").1.UpdatedAt = 10 ∧
      ¬ ((GetFunc sampleRegistered "test_func").1.UpdatedAt
          < (GetFunc (UpdateSpec sampleValid 10 sampleRegistered "test_func"
              "*/2 * * * * *").1 "test_func").1.UpdatedAt) := by
  decide

/-- C8, amended: after a successful `UpdateSpec` of a registered name the
`UpdatedAt` of the job is the clock reading of the call, so it is strictly
greater than the `UpdatedAt` before the call exactly when that reading is
strictly later than the stored one. -/
theorem UpdateSpec_updatedAt {W : Type} (valid : String → Bool) (now : Int)
    (d : DynamicScheduler W) (name newSpec : String) (old : NamedFunc W)
    (hpresent : mapGet d.Funcs name = some old)
    (hok : (UpdateSpec valid now d name newSpec).2 = none) :
    (GetFunc (UpdateSpec valid now d name newSpec).1 name).2 = true ∧
      (GetFunc (UpdateSpec valid now d name newSpec).1 name).1.UpdatedAt = now ∧
      (old.UpdatedAt < (GetFunc (UpdateSpec valid now d name newSpec).1 name).1.UpdatedAt
        ↔ old.UpdatedAt < now) := by
  cases hv : valid newSpec with
  | false =>
    rw [UpdateSpec_of_rejected valid now d name newSpec old hpresent hv] at hok
    simp at hok
  | true =>
    rw [UpdateSpec_of_accepted valid now d name newSpec old hpresent hv]
    simp [GetFunc, mapGet_mapSet_same]

/-- Witness of C8 (amended): `test_func`, registered at 10, rescheduled at 20. -/
theorem UpdateSpec_updatedAt_witness :
    mapGet sampleRegistered.Funcs "test_func"
        = some { sampleJob with ID := 1, UpdatedAt := 10 } ∧
      (UpdateSpec sampleValid 20 sampleRegistered "test_func" "*/2 * * * * *").2 = none ∧
      (GetFunc (UpdateSpec sampleValid 20 sampleRegistered "test_func" "*/2 * * * * *").1
        "test_func").1.UpdatedAt = 20 :=
  ⟨by decide, by decide,
    (UpdateSpec_updatedAt sampleValid 20 sampleRegistered "test_func" "*/2 * * * * *"
      { sampleJob with ID := 1, UpdatedAt := 10 } (by decide) (by decide)).2.1⟩

/-- C9: let `name` be registered with entry `reg` (as right after its
registration).  After any further calls its entry still has the name,
description, timeout and work of `reg`, and so has the entry after one more
`UpdateSpec` of `name`.  A failing `UpdateSpec` leaves the entry as it was; a
successful one changes only `ID`, `Spec` and `UpdatedAt`, and the registration
it adds to the engine fires the wrapper built from the work and timeout of
`reg`. -/
theorem UpdateSpec_frame {W : Type} (valid : String → Bool) (d0 : DynamicScheduler W)
    (name : String) (reg : NamedFunc W) (ops : List (Op W)) (now : Int) (newSpec : String)
    (hreg : mapGet d0.Funcs name = some reg) :
    ∃ before after : NamedFunc W,
      mapGet (runOps valid ops d0).Funcs name = some before ∧
      sameIdentity before reg ∧
      mapGet (UpdateSpec valid now (runOps valid ops d0) name newSpec).1.Funcs name
        = some after ∧
      sameIdentity after reg ∧
      ((UpdateSpec valid now (runOps valid ops d0) name newSpec).2 ≠ none → after = before) ∧
      ((UpdateSpec valid now (runOps valid ops d0) name newSpec).2 = none →
        after = { before with ID := after.ID, Spec := newSpec, UpdatedAt := now } ∧
        (UpdateSpec valid now (runOps valid ops d0) name newSpec).1.Cron.entries
          = (Engine.Remove (runOps valid ops d0).Cron before.ID).entries ++
              [{ ID := after.ID, Spec := newSpec,
                 Job := wrapFunction reg.Func reg.Timeout }]) := by
  obtain ⟨before, hbefore, hsame⟩ := identity_runOps valid ops d0 name reg hreg
  cases hv : valid newSpec with
  | false =>
    refine ⟨before, before, hbefore, hsame, ?_, hsame, fun _ => rfl, ?_⟩
    · rw [UpdateSpec_of_rejected valid now _ name newSpec before hbefore hv]
      exact hbefore
    · rw [UpdateSpec_of_rejected valid now _ name newSpec before hbefore hv]
      intro h
      simp at h
  | true =>
    refine ⟨before,
      { before with
        ID := (runOps valid ops d0).Cron.nextID + 1, Spec := newSpec, UpdatedAt := now },
      hbefore, hsame, ?_, ?_, ?_, ?_⟩
    · rw [UpdateSpec_of_accepted valid now _ name newSpec before hbefore hv]
      exact mapGet_mapSet_same _ _ _
    · exact ⟨hsame.1, hsame.2.1, hsame.2.2.1, hsame.2.2.2⟩
    · rw [UpdateSpec_of_accepted valid now _ name newSpec before hbefore hv]
      intro h
      exact absurd rfl h
    · intro _
      refine ⟨rfl, ?_⟩
      rw [UpdateSpec_of_accepted valid now _ name newSpec before hbefore hv]
      simp only [hsame.2.2.2, hsame.2.2.1]

/-- Witness of C9: `test_func` after a rejected update and one more update. -/
theorem UpdateSpec_frame_witness :
    mapGet sampleRegistered.Funcs "test_func"
        = some { sampleJob with ID := 1, UpdatedAt := 10 } ∧
      ∃ after : NamedFunc Nat,
        mapGet (UpdateSpec sampleValid 20
            (runOps sampleValid [Op.update 15 "test_func" "invalid-spec"] sampleRegistered)
            "test_func" "*/2 * * * * *").1.Funcs "test_func" = some after ∧
        sameIdentity after { sampleJob with ID := 1, UpdatedAt := 10 } :=
  ⟨by decide, by
    obtain ⟨_, after, _, _, hafter, hsame, _, _⟩ :=
      UpdateSpec_frame sampleValid sampleRegistered "test_func"
        { sampleJob with ID := 1, UpdatedAt := 10 }
        [Op.update 15 "test_func" "invalid-spec"] 20 "*/2 * * * * *" (by decide)
    exact ⟨after, hafter, hsame⟩⟩

/-! ## ListFuncs -/

/-- C10: after any sequence of `RegisterFunc` and `UpdateSpec` calls on a new
scheduler, in whatever order `ListFuncs` visits the map, the names of the
entries it returns are, up to order, the names whose `RegisterFunc` returned
no error; no name occurs twice, so the length of `ListFuncs` is the number of
successfully registered names. -/
theorem ListFuncs_registered {W : Type} (valid : String → Bool) (schedName : String)
    (ops : List (Op W)) (rank : String → Nat) :
    List.Perm
        ((ListFuncs rank (runOps valid ops (NewDynamicScheduler schedName))).map NamedFunc.Name)
        (registeredNames valid ops (NewDynamicScheduler schedName)) ∧
      ((ListFuncs rank (runOps valid ops (NewDynamicScheduler schedName))).map
        NamedFunc.Name).Nodup ∧
      (registeredNames valid ops (NewDynamicScheduler schedName)).Nodup ∧
      (ListFuncs rank (runOps valid ops (NewDynamicScheduler schedName))).length
        = (registeredNames valid ops (NewDynamicScheduler schedName)).length := by
  have hk0 : KeyedByName (NewDynamicScheduler schedName : DynamicScheduler W) := by
    intro p hp
    simp [NewDynamicScheduler] at hp
  have hn0 : (mapKeys (NewDynamicScheduler schedName : DynamicScheduler W).Funcs).Nodup := by
    simp [NewDynamicScheduler, mapKeys]
  obtain ⟨hk, hn, hkeys⟩ := run_keys valid ops (NewDynamicScheduler schedName) hk0 hn0
  have hreg : mapKeys (runOps valid ops (NewDynamicScheduler schedName)).Funcs
      = registeredNames valid ops (NewDynamicScheduler schedName) := by
    rw [hkeys]
    simp [NewDynamicScheduler, mapKeys]
  have hall : List.Perm
      ((ListFuncs rank (runOps valid ops (NewDynamicScheduler schedName))).map NamedFunc.Name)
      (registeredNames valid ops (NewDynamicScheduler schedName)) :=
    hreg ▸ ListFuncs_names rank _ hk
  have hnodup : (registeredNames valid ops (NewDynamicScheduler schedName)).Nodup :=
    hreg ▸ hn
  have hlen := hall.length_eq
  rw [List.length_map] at hlen
  exact ⟨hall, hall.nodup_iff.2 hnodup, hnodup, hlen⟩

/-! ## GetFunc -/

/-- C11: in a registry map (keys pairwise distinct), `GetFunc` returns the stored
entry and `true` exactly when the name is a key of the map, and the zero value
and `false` otherwise.  The map stores `NamedFunc` values, not pointers, and
`GetFunc` only reads: it yields a job and no new scheduler, so the registry and
the engine after the call are the ones before it, whatever the caller does
with the job. -/
theorem GetFunc_spec {W : Type} (d : DynamicScheduler W) (name : String)
    (hkeys : (mapKeys d.Funcs).Nodup) :
    (∀ nf, (name, nf) ∈ d.Funcs → GetFunc d name = (nf, true)) ∧
      (name ∉ mapKeys d.Funcs → GetFunc d name = (NamedFunc.zero, false)) ∧
      ((GetFunc d name).2 = true ↔ name ∈ mapKeys d.Funcs) ∧
      ((GetFunc d name).2 = true → (name, (GetFunc d name).1) ∈ d.Funcs) := by
  refine ⟨?_, ?_, ?_, ?_⟩
  · intro nf hmem
    simp [GetFunc, mapGet_of_mem _ _ _ hkeys hmem]
  · intro hnot
    simp [GetFunc, (mapGet_eq_none_iff _ _).2 hnot]
  · cases hget : mapGet d.Funcs name with
    | none =>
      have hnot := (mapGet_eq_none_iff _ _).1 hget
      simp [GetFunc, hget, hnot]
    | some nf =>
      have hin : name ∈ mapKeys d.Funcs := by
        by_contra hnot
        rw [(mapGet_eq_none_iff _ _).2 hnot] at hget
        exact Option.noConfusion hget
      simp [GetFunc, hget, hin]
  · cases hget : mapGet d.Funcs name with
    | none => simp [GetFunc, hget]
    | some nf =>
      intro _
      simpa [GetFunc, hget] using mem_of_mapGet _ _ _ hget

/-- Witness of C11: looking up `test_func` after its registration. -/
theorem GetFunc_spec_witness :
    (mapKeys sampleRegistered.Funcs).Nodup ∧
      GetFunc sampleRegistered "test_func"
        = ({ sampleJob with ID := 1, UpdatedAt := 10 }, true) ∧
      GetFunc sampleRegistered "nonexistent" = (NamedFunc.zero, false) :=
  ⟨by decide,
    (GetFunc_spec sampleRegistered "test_func" (by decide)).1
      { sampleJob with ID := 1, UpdatedAt := 10 } (by decide),
    (GetFunc_spec sampleRegistered "nonexistent" (by decide)).2.1 (by decide)⟩

/-! ## Invariants of the registry and the engine -/

/-- C17: in every scheduler reached from a new one by `RegisterFunc` and
`UpdateSpec` calls, every entry of the registry map is stored under its own
name, so `GetFunc(k)`, when it finds a job, returns a job named `k`, and the
names in `ListFuncs` are pairwise distinct, in whatever order it visits the
map. -/
theorem registry_keyed_by_name {W : Type} (valid : String → Bool) (schedName : String)
    (ops : List (Op W)) (d : DynamicScheduler W) (rank : String → Nat)
    (hreach : d = runOps valid ops (NewDynamicScheduler schedName)) :
    (∀ k nf, mapGet d.Funcs k = some nf → nf.Name = k) ∧
      (∀ k, (GetFunc d k).2 = true → (GetFunc d k).1.Name = k) ∧
      ((ListFuncs rank d).map NamedFunc.Name).Nodup := by
  have hk0 : KeyedByName (NewDynamicScheduler schedName : DynamicScheduler W) := by
    intro p hp
    simp [NewDynamicScheduler] at hp
  have hn0 : (mapKeys (NewDynamicScheduler schedName : DynamicScheduler W).Funcs).Nodup := by
    simp [NewDynamicScheduler, mapKeys]
  obtain ⟨hk, hn, _⟩ := run_keys valid ops (NewDynamicScheduler schedName) hk0 hn0
  rw [← hreach] at hk hn
  have hstored : ∀ k nf, mapGet d.Funcs k = some nf → nf.Name = k :=
    fun k nf h => hk (k, nf) (mem_of_mapGet _ _ _ h)
  refine ⟨hstored, ?_, ?_⟩
  · intro k
    cases hget : mapGet d.Funcs k with
    | none => simp [GetFunc, hget]
    | some nf =>
      intro _
      simpa [GetFunc, hget] using hstored k nf hget
  · exact (ListFuncs_names rank d hk).nodup_iff.2 hn

/-- Witness of C17: the two jobs of `sampleRun` are stored under their names. -/
theorem registry_keyed_by_name_witness :
    sampleRun = runOps sampleValid sampleOps (NewDynamicScheduler "test") ∧
      (GetFunc sampleRun "other").2 = true ∧
      (GetFunc sampleRun "other").1.Name = "other" ∧
      ((ListFuncs sampleRank sampleRun).map NamedFunc.Name).Nodup :=
  ⟨rfl, by decide,
    (registry_keyed_by_name sampleValid "test" sampleOps sampleRun sampleRank rfl).2.1 "other"
      (by decide),
    (registry_keyed_by_name sampleValid "test" sampleOps sampleRun sampleRank rfl).2.2⟩

/-- C18: with an engine that issues a new handle on every successful
`AddFunc`, in every scheduler reached from a new one by `RegisterFunc` and
`UpdateSpec` calls the engine holds no orphaned registration: every live handle
is the stored handle of exactly one registry job, no handle is live twice,
distinct jobs have distinct stored handles, and the live registrations are at
most as many as the registry entries. -/
theorem engine_no_orphans {W : Type} (valid : String → Bool) (schedName : String)
    (ops : List (Op W)) (d : DynamicScheduler W)
    (hreach : d = runOps valid ops (NewDynamicScheduler schedName)) :
    (∀ h ∈ activeHandles d.Cron, ∃ k nf, mapGet d.Funcs k = some nf ∧ nf.ID = h ∧
        ∀ k2 nf2, mapGet d.Funcs k2 = some nf2 → nf2.ID = h → k2 = k) ∧
      (activeHandles d.Cron).Nodup ∧
      (∀ k1 k2 nf1 nf2, mapGet d.Funcs k1 = some nf1 → mapGet d.Funcs k2 = some nf2 →
        k1 ≠ k2 → nf1.ID ≠ nf2.ID) ∧
      d.Cron.entries.length ≤ d.Funcs.length := by
  have hinv : EngineInv d := by
    rw [hreach]
    exact EngineInv_runOps valid ops _ (EngineInv_new schedName)
  obtain ⟨_, hdist, hown, hnd⟩ := hinv
  refine ⟨?_, hnd, ?_, ?_⟩
  · intro h hh
    obtain ⟨e, he, heq⟩ := List.mem_map.1 hh
    obtain ⟨k, nf, hget, hid⟩ := hown e he
    refine ⟨k, nf, hget, hid.trans heq, ?_⟩
    intro k2 nf2 hget2 hid2
    exact hdist k2 k nf2 nf hget2 hget (hid2.trans (hid.trans heq).symm)
  · intro k1 k2 nf1 nf2 h1 h2 hne hid
    exact hne (hdist k1 k2 nf1 nf2 h1 h2 hid)
  · have hsub : activeHandles d.Cron ⊆ d.Funcs.map (fun p => p.2.ID) := by
      intro h hh
      obtain ⟨e, he, heq⟩ := List.mem_map.1 hh
      obtain ⟨k, nf, hget, hid⟩ := hown e he
      exact List.mem_map.2 ⟨(k, nf), mem_of_mapGet _ _ _ hget, hid.trans heq⟩
    have hlen := (List.subperm_of_subset hnd hsub).length_le
    simpa [activeHandles] using hlen

/-- Witness of C18: in `sampleRun` one job has lost its registration and the
other holds handle 3; one registration is live for two registry entries. -/
theorem engine_no_orphans_witness :
    sampleRun = runOps sampleValid sampleOps (NewDynamicScheduler "test") ∧
      activeHandles sampleRun.Cron = [3] ∧
      (mapGet sampleRun.Funcs "other").map NamedFunc.ID = some 3 ∧
      sampleRun.Cron.entries.length ≤ sampleRun.Funcs.length :=
  ⟨rfl, by decide, by decide,
    (engine_no_orphans sampleValid "test" sampleOps sampleRun rfl).2.2.2⟩

/-- C19: let `name` be registered with entry `old` in a scheduler `d0` reached
from a new one, and let `d` be the scheduler after one or more `UpdateSpec`
calls on `name` whose specs the engine rejects, followed by any calls `later`
that are not an `UpdateSpec` of `name`.  The registry entry is still `old`,
its handle is no longer live, so the `Remove` of the next call drops no
registration.  An `UpdateSpec` with a spec that the engine accepts then returns
no error, and afterwards the job has exactly one live registration: it is
under the handle stored in the registry, was installed under the new spec and
fires the wrapper of the job; every other job keeps its registry entry and its
registrations. -/
theorem UpdateSpec_recovers {W : Type} (valid : String → Bool) (schedName : String)
    (ops : List (Op W)) (d0 d : DynamicScheduler W) (name : String) (old : NamedFunc W)
    (bads : List (Int × String)) (later : List (Op W)) (now : Int) (newSpec : String)
    (hreach : d0 = runOps valid ops (NewDynamicScheduler schedName))
    (hpresent : mapGet d0.Funcs name = some old)
    (hsome : bads ≠ []) (hbad : ∀ b ∈ bads, valid b.2 = false)
    (hlater : ∀ op ∈ later, Op.notUpdateOf name op = true)
    (hd : d = runOps valid later
      (runOps valid (bads.map (fun b => Op.update b.1 name b.2)) d0))
    (hgood : valid newSpec = true) :
    mapGet d.Funcs name = some old ∧
      old.ID ∉ activeHandles d.Cron ∧
      (Engine.Remove d.Cron old.ID).entries = d.Cron.entries ∧
      (UpdateSpec valid now d name newSpec).2 = none ∧
      (∃ cur, mapGet (UpdateSpec valid now d name newSpec).1.Funcs name = some cur ∧
        cur.Spec = newSpec ∧
        registrationsOf (UpdateSpec valid now d name newSpec).1.Cron cur.ID
          = [{ ID := cur.ID, Spec := newSpec, Job := wrapFunction old.Func old.Timeout }] ∧
        jobScheduled (UpdateSpec valid now d name newSpec).1.Cron cur = true) ∧
      ∀ m other, m ≠ name → mapGet d.Funcs m = some other →
        mapGet (UpdateSpec valid now d name newSpec).1.Funcs m = some other ∧
        registrationsOf (UpdateSpec valid now d name newSpec).1.Cron other.ID
          = registrationsOf d.Cron other.ID := by
  have hinv0 : EngineInv d0 := by
    rw [hreach]
    exact EngineInv_runOps valid ops _ (EngineInv_new schedName)
  obtain ⟨hinv1, hfuncs, hdead, _, _⟩ :=
    rejected_updates valid name old bads hbad d0 hinv0 hpresent
  obtain ⟨hinv, hget, hnot⟩ :=
    stale_kept valid name old later hlater _ hinv1 (by rw [hfuncs]; exact hpresent)
      (hdead hsome)
  rw [← hd] at hinv hget hnot
  obtain ⟨hnew, hothers⟩ :=
    UpdateSpec_accepted_registrations valid now d name newSpec old hinv hget hgood
  refine ⟨hget, hnot, ?_, ?_, ?_, ?_⟩
  · simp only [Engine.Remove]
    rw [List.filter_eq_self]
    intro e he
    have : e.ID ≠ old.ID := fun h => hnot (List.mem_map.2 ⟨e, he, h⟩)
    simpa using this
  · rw [UpdateSpec_of_accepted valid now d name newSpec old hget hgood]
  · refine ⟨{ old with ID := d.Cron.nextID + 1, Spec := newSpec, UpdatedAt := now },
      ?_, rfl, hnew, ?_⟩
    · rw [UpdateSpec_of_accepted valid now d name newSpec old hget hgood]
      exact mapGet_mapSet_same _ _ _
    · simp only [jobScheduled]
      rw [hnew]
      simp
  · intro m other hm hother
    refine ⟨?_, hothers m other hm hother⟩
    rw [UpdateSpec_other_entry valid now d name newSpec m hm]
    exact hother

/-- Witness of C19: in `sampleRun`, `test_func` gets two more rejected updates,
`other` is rescheduled, and then `test_func` is rescheduled to `@every 2s`. -/
theorem UpdateSpec_recovers_witness :
    sampleRun = runOps sampleValid sampleOps (NewDynamicScheduler "test") ∧
      mapGet sampleRun.Funcs "test_func"
        = some { sampleJob with ID := 1, UpdatedAt := 10 } ∧
      sampleRecovering = runOps sampleValid [Op.update 22 "other" "@every 9s"]
        (runOps sampleValid
          ([(20, "invalid-spec"), (21, "invalid-spec")].map
            (fun b => Op.update b.1 "test_func" b.2)) sampleRun) ∧
      (UpdateSpec sampleValid 30 sampleRecovering "test_func" "@every 2s").2 = none ∧
      ∃ cur : NamedFunc Nat,
        mapGet (UpdateSpec sampleValid 30 sampleRecovering "test_func" "@every 2s").1.Funcs
          "test_func" = some cur ∧
        cur.Spec = "@every 2s" ∧
        registrationsOf
          (UpdateSpec sampleValid 30 sampleRecovering "test_func" "@every 2s").1.Cron cur.ID
          = [{ ID := cur.ID, Spec := "@every 2s",
               Job := wrapFunction sampleJob.Func sampleJob.Timeout }] ∧
        jobScheduled
          (UpdateSpec sampleValid 30 sampleRecovering "test_func" "@every 2s").1.Cron cur
          = true :=
  ⟨rfl, by decide, rfl,
    (UpdateSpec_recovers sampleValid "test" sampleOps sampleRun sampleRecovering "test_func"
      { sampleJob with ID := 1, UpdatedAt := 10 }
      [(20, "invalid-spec"), (21, "invalid-spec")] [Op.update 22 "other" "@every 9s"]
      30 "@every 2s" rfl (by decide) (by decide) (by decide) (by decide) rfl
      (by decide)).2.2.2.1,
    (UpdateSpec_recovers sampleValid "test" sampleOps sampleRun sampleRecovering "test_func"
      { sampleJob with ID := 1, UpdatedAt := 10 }
      [(20, "invalid-spec"), (21, "invalid-spec")] [Op.update 22 "other" "@every 9s"]
      30 "@every 2s" rfl (by decide) (by decide) (by decide) (by decide) rfl
      (by decide)).2.2.2.2.1⟩

/-- C20: in a scheduler reached from a new one, `RegisterFunc` of a job named
`nf.Name` and `UpdateSpec(name, newSpec)`, whatever they return, leave the
registry entry of every other name as it was, and every other job keeps
exactly the engine registrations it had under its stored handle. -/
theorem other_jobs_untouched {W : Type} (valid : String → Bool) (schedName : String)
    (ops : List (Op W)) (d : DynamicScheduler W) (now : Int) (nf : NamedFunc W)
    (name newSpec : String)
    (hreach : d = runOps valid ops (NewDynamicScheduler schedName)) :
    (∀ m, m ≠ nf.Name →
        mapGet (RegisterFunc valid now d nf).1.Funcs m = mapGet d.Funcs m ∧
        ∀ other, mapGet d.Funcs m = some other →
          registrationsOf (RegisterFunc valid now d nf).1.Cron other.ID
            = registrationsOf d.Cron other.ID) ∧
      (∀ m, m ≠ name →
        mapGet (UpdateSpec valid now d name newSpec).1.Funcs m = mapGet d.Funcs m ∧
        ∀ other, mapGet d.Funcs m = some other →
          registrationsOf (UpdateSpec valid now d name newSpec).1.Cron other.ID
            = registrationsOf d.Cron other.ID) := by
  have hinv : EngineInv d := by
    rw [hreach]
    exact EngineInv_runOps valid ops _ (EngineInv_new schedName)
  constructor
  · intro m hm
    refine ⟨RegisterFunc_other_entry valid now d nf m hm, ?_⟩
    intro other hother
    exact RegisterFunc_registrations valid now d nf hinv m other hother
  · intro m hm
    refine ⟨UpdateSpec_other_entry valid now d name newSpec m hm, ?_⟩
    intro other hother
    cases hget : mapGet d.Funcs name with
    | none => rw [UpdateSpec_of_absent valid now d name newSpec hget]
    | some old =>
      cases hv : valid newSpec with
      | false =>
        exact (UpdateSpec_rejected_registrations valid now d name newSpec old hinv hget hv).2
          m other hm hother
      | true =>
        exact (UpdateSpec_accepted_registrations valid now d name newSpec old hinv hget hv).2
          m other hm hother

/-- Witness of C20: in `sampleRun`, rescheduling `test_func` leaves `other`
with its entry and its one registration under handle 3. -/
theorem other_jobs_untouched_witness :
    sampleRun = runOps sampleValid sampleOps (NewDynamicScheduler "test") ∧
      mapGet (UpdateSpec sampleValid 30 sampleRun "test_func" "@every 2s").1.Funcs "other"
        = mapGet sampleRun.Funcs "other" ∧
      registrationsOf (UpdateSpec sampleValid 30 sampleRun "test_func" "@every 2s").1.Cron 3
        = registrationsOf sampleRun.Cron 3 :=
  ⟨rfl,
    ((other_jobs_untouched sampleValid "test" sampleOps sampleRun 30 sampleJob
      "test_func" "@every 2s" rfl).2 "other" (by decide)).1,
    ((other_jobs_untouched sampleValid "test" sampleOps sampleRun 30 sampleJob
      "test_func" "@every 2s" rfl).2 "other" (by decide)).2
      { sampleJob with ID := 3, Name := "other", Spec := "@every 1s", UpdatedAt := 13 }
      (by decide)⟩

/-! ## The callback of wrapFunction -/

/-- C12: for every work and every timeout that is zero or negative, the closure
of `wrapFunction` takes the branch `fn(); return`: fired in a world `s` it
returns exactly in the world in which the call `fn()` on the firing task
returns, and it does not return when that call does not.  In a world that
counts the calls of the work the count goes up by one. -/
theorem wrapFunction_no_timeout {σ W : Type} (run : W → σ → Option σ) (fn : Option W)
    (timeout : Int) (s : σ) (n : Nat) (hle : timeout ≤ 0) :
    (wrapFunction fn timeout).fire run s = Firing.direct (callWork run fn s) ∧
      (callWork run fn s = none →
        (wrapFunction fn timeout).fire run s = Firing.direct none) ∧
      (∀ w s1, fn = some w → run w s = some s1 →
        (wrapFunction fn timeout).fire run s = Firing.direct (some s1) ∧
        (wrapFunction fn timeout).fire (countingRun run) (s, n)
          = Firing.direct (some (s1, n + 1))) := by
  have hfire : ∀ (τ : Type) (r : W → τ → Option τ) (t : τ),
      (wrapFunction fn timeout).fire r t = Firing.direct (callWork r fn t) := by
    intro τ r t
    simp [Wrapped.fire, wrapFunction, hle]
  refine ⟨hfire σ run s, ?_, ?_⟩
  · intro hnone
    rw [hfire σ run s, hnone]
  · intro w s1 hfn hrun
    rw [hfire σ run s, hfire (σ × Nat) (countingRun run) (s, n)]
    subst hfn
    simp [callWork, countingRun, hrun]

/-- Witness of C12: the timeouts 0 and -1 of `TestZeroTimeout` and
`TestNegativeTimeout`, with a work that adds 5 to the world 100. -/
theorem wrapFunction_no_timeout_witness :
    (0 : Int) ≤ 0 ∧ (-1 : Int) ≤ 0 ∧
      (wrapFunction (some 5) 0).fire sampleWork 100 = Firing.direct (some 105) ∧
      (wrapFunction (some 5) (-1)).fire (countingRun sampleWork) (100, 0)
        = Firing.direct (some (105, 1)) :=
  ⟨by decide, by decide,
    ((wrapFunction_no_timeout sampleWork (some 5) 0 100 0 (by decide)).2.2 5 105 rfl
      (by decide)).1,
    ((wrapFunction_no_timeout sampleWork (some 5) (-1) 100 0 (by decide)).2.2 5 105 rfl
      (by decide)).2⟩

/-! ## The snapshot -/

/-- C14, as stated, fails: the job `a<b` is registered in `sampleEscaped`, but
its name does not occur in the text of the snapshot: `encoding/json` writes
the character `<` as the escape `\u003c`, and the text has the name in that
form. -/
theorem MarshalJSON_escapes_name :
    (GetFunc sampleEscaped "a<b").2 = true ∧
      (GetFunc sampleEscaped "a<b").1.Name = "a<b" ∧
      ¬ (codes "a<b" <:+: marshalText sampleFmtTime sampleRank sampleEscaped) ∧
      renderString "a<b" = [34, 97, 92, 117, 48, 48, 51, 99, 98, 34] ∧
      renderString "a<b" <:+: marshalText sampleFmtTime sampleRank sampleEscaped := by
  decide

/-- C14, amended: for every scheduler, and whatever order `ListFuncs` visits
the map in, the document of `MarshalJSON` has the members `name`, the name of
the scheduler, and `funcs`, a list with one object per entry of that
`ListFuncs` call (the entries of the registry map, each once), each with the
`name` and `spec` of its job.  In the text, the name of the scheduler and the
name and the spec of every registered job stand as JSON strings, that is in
escaped form between quotes, as the values of the members `name` and `spec`;
a name or spec without characters that `encoding/json` escapes occurs in the
text as it is.  Reading the text back and decoding it gives the name of the
scheduler and the jobs in the order of the list, names included, provided that
`parseTime` reads back the stored times as `fmtTime` writes them. -/
theorem MarshalJSON_snapshot {W : Type} (fmtTime : Int → String)
    (parseTime : String → Option Int) (rank : String → Nat) (d : DynamicScheduler W) :
    mapKeys (MarshalJSON rank d) = ["name", "funcs"] ∧
      mapGet (MarshalJSON rank d) "name" = some (JsonValue.scalar (JsonScalar.str d.Name)) ∧
      mapGet (MarshalJSON rank d) "funcs"
        = some (JsonValue.array ((ListFuncs rank d).map encodeNamedFunc)) ∧
      List.Perm (ListFuncs rank d) (d.Funcs.map Prod.snd) ∧
      (∀ nf : NamedFunc W,
        mapGet (encodeNamedFunc nf) "name" = some (JsonScalar.str nf.Name) ∧
        mapGet (encodeNamedFunc nf) "spec" = some (JsonScalar.str nf.Spec)) ∧
      renderString d.Name <:+: marshalText fmtTime rank d ∧
      (∀ k nf, mapGet d.Funcs k = some nf →
        encodeNamedFunc nf ∈ (ListFuncs rank d).map encodeNamedFunc ∧
        renderMember fmtTime ("name", JsonScalar.str nf.Name)
          <:+: marshalText fmtTime rank d ∧
        renderMember fmtTime ("spec", JsonScalar.str nf.Spec)
          <:+: marshalText fmtTime rank d ∧
        renderString nf.Name <:+: marshalText fmtTime rank d ∧
        renderString nf.Spec <:+: marshalText fmtTime rank d ∧
        (plainString nf.Name → codes nf.Name <:+: marshalText fmtTime rank d) ∧
        (plainString nf.Spec → codes nf.Spec <:+: marshalText fmtTime rank d)) ∧
      ((∀ p ∈ d.Funcs, parseTime (fmtTime p.2.UpdatedAt) = some p.2.UpdatedAt) →
        unmarshalSnapshot parseTime (marshalText fmtTime rank d)
          = some (d.Name,
              (ListFuncs rank d).map (fun nf => ({ nf with Func := none } : NamedFunc W))) ∧
        (unmarshalSnapshot parseTime (marshalText fmtTime rank d)
            : Option (String × List (NamedFunc W))).map
            (fun r => (r.1, r.2.map NamedFunc.Name))
          = some (d.Name, (ListFuncs rank d).map NamedFunc.Name)) := by
  have hperm := ListFuncs_perm rank d
  have htext : marshalText fmtTime rank d = renderDocument fmtTime
      [("name", JsonValue.scalar (JsonScalar.str d.Name)),
       ("funcs", JsonValue.array ((ListFuncs rank d).map encodeNamedFunc))] := by
    rw [marshalText, MarshalJSON_eq]
  refine ⟨?_, ?_, ?_, hperm, ?_, ?_, ?_, ?_⟩
  · rw [MarshalJSON_eq]
    rfl
  · rw [MarshalJSON_eq]
    simp [mapGet]
  · rw [MarshalJSON_eq]
    simp [mapGet]
  · intro nf
    rw [encodeNamedFunc_eq]
    simp [mapGet]
  · rw [htext]
    exact name_infix_document fmtTime d.Name _
  · intro k nf hget
    have hmem : nf ∈ ListFuncs rank d :=
      hperm.mem_iff.2 (List.mem_map.2 ⟨(k, nf), mem_of_mapGet _ _ _ hget, rfl⟩)
    have hobj : encodeNamedFunc nf ∈ (ListFuncs rank d).map encodeNamedFunc :=
      List.mem_map.2 ⟨nf, hmem, rfl⟩
    have hdoc : renderObject fmtTime (encodeNamedFunc nf) <:+: marshalText fmtTime rank d := by
      rw [htext]
      exact object_infix_document fmtTime d.Name _ _ hobj
    have hname : renderMember fmtTime ("name", JsonScalar.str nf.Name)
        <:+: marshalText fmtTime rank d :=
      (member_infix_object fmtTime _ _ (by rw [encodeNamedFunc_eq]; simp)).trans hdoc
    have hspec : renderMember fmtTime ("spec", JsonScalar.str nf.Spec)
        <:+: marshalText fmtTime rank d :=
      (member_infix_object fmtTime _ _ (by rw [encodeNamedFunc_eq]; simp)).trans hdoc
    have hn := (renderString_infix_member fmtTime "name" nf.Name).trans hname
    have hs := (renderString_infix_member fmtTime "spec" nf.Spec).trans hspec
    exact ⟨hobj, hname, hspec, hn, hs,
      fun hp => (codes_infix_renderString _ hp).trans hn,
      fun hp => (codes_infix_renderString _ hp).trans hs⟩
  · intro htime
    have htime2 : ∀ nf ∈ ListFuncs rank d,
        parseTime (fmtTime nf.UpdatedAt) = some nf.UpdatedAt := by
      intro nf hnf
      obtain ⟨p, hp, rfl⟩ := List.mem_map.1 (hperm.mem_iff.1 hnf)
      exact htime p hp
    have hdec := unmarshal_marshalText fmtTime parseTime rank d htime2
    refine ⟨hdec, ?_⟩
    rw [hdec]
    simp [List.map_map, Function.comp_def]

/-- Witness of C14 (amended): the snapshot of `sampleRun`, whose jobs are
listed by `sampleRank` as `other`, `test_func`. -/
theorem MarshalJSON_snapshot_witness :
    mapGet sampleRun.Funcs "other"
        = some { sampleJob with ID := 3, Name := "other", Spec := "@every 1s", UpdatedAt := 13 } ∧
      (∀ p ∈ sampleRun.Funcs,
        sampleParseTime (sampleFmtTime p.2.UpdatedAt) = some p.2.UpdatedAt) ∧
      renderString "@every 1s" <:+: marshalText sampleFmtTime sampleRank sampleRun ∧
      (unmarshalSnapshot sampleParseTime (marshalText sampleFmtTime sampleRank sampleRun)
          : Option (String × List (NamedFunc Nat))).map
          (fun r => (r.1, r.2.map NamedFunc.Name))
        = some ("test", (ListFuncs sampleRank sampleRun).map NamedFunc.Name) ∧
      (ListFuncs sampleRank sampleRun).map NamedFunc.Name = ["other", "test_func"] :=
  ⟨by decide, by decide,
    ((MarshalJSON_snapshot sampleFmtTime sampleParseTime sampleRank sampleRun).2.2.2.2.2.2.1
      "other"
      { sampleJob with ID := 3, Name := "other", Spec := "@every 1s", UpdatedAt := 13 }
      (by decide)).2.2.2.2.1,
    ((MarshalJSON_snapshot sampleFmtTime sampleParseTime sampleRank sampleRun).2.2.2.2.2.2.2
      (by decide)).2,
    by decide⟩

/-- C15, as stated, fails: in the snapshot of `sampleRegistered` the entry of
`test_func` has the member `id` with the value 1, which is the handle stored
for the job and the handle of its live registration in the engine. -/
theorem snapshot_exposes_handle :
    (mapGet sampleRegistered.Funcs "test_func").map NamedFunc.ID = some 1 ∧
      activeHandles sampleRegistered.Cron = [1] ∧
      mapGet (MarshalJSON sampleRank sampleRegistered) "funcs"
        = some (JsonValue.array
            [[("id", JsonScalar.num 1), ("name", JsonScalar.str "test_func"),
              ("description", JsonScalar.str ""), ("spec", JsonScalar.str "* * * * * *"),
              ("timeout", JsonScalar.num 0), ("updatedAt", JsonScalar.time 10)]]) := by
  decide

/-- C15, amended: for every registered job, its entry in the snapshot has the
members `id`, `name`, `description`, `spec`, `timeout` and `updatedAt`, with
the values stored in the registry (`id` is the stored engine handle), and no
other member: the work is not in it, and the entry is the same whatever the
work of the job is. -/
theorem snapshot_entry_fields {W : Type} (rank : String → Nat) (d : DynamicScheduler W)
    (k : String) (nf : NamedFunc W) (hpresent : mapGet d.Funcs k = some nf) :
    encodeNamedFunc nf ∈ (ListFuncs rank d).map encodeNamedFunc ∧
      mapGet (MarshalJSON rank d) "funcs"
        = some (JsonValue.array ((ListFuncs rank d).map encodeNamedFunc)) ∧
      mapKeys (encodeNamedFunc nf)
        = ["id", "name", "description", "spec", "timeout", "updatedAt"] ∧
      encodeNamedFunc nf =
        [("id", JsonScalar.num nf.ID), ("name", JsonScalar.str nf.Name),
         ("description", JsonScalar.str nf.Description), ("spec", JsonScalar.str nf.Spec),
         ("timeout", JsonScalar.num nf.Timeout), ("updatedAt", JsonScalar.time nf.UpdatedAt)] ∧
      ∀ work : Option W, encodeNamedFunc { nf with Func := work } = encodeNamedFunc nf := by
  have hmem : nf ∈ ListFuncs rank d :=
    (ListFuncs_perm rank d).mem_iff.2
      (List.mem_map.2 ⟨(k, nf), mem_of_mapGet _ _ _ hpresent, rfl⟩)
  refine ⟨List.mem_map.2 ⟨nf, hmem, rfl⟩, ?_, ?_, encodeNamedFunc_eq nf, ?_⟩
  · rw [MarshalJSON_eq]
    simp [mapGet]
  · rw [encodeNamedFunc_eq]
    rfl
  · intro work
    rw [encodeNamedFunc_eq, encodeNamedFunc_eq]

/-- Witness of C15 (amended): the entry of `test_job` in `sampleListed`. -/
theorem snapshot_entry_fields_witness :
    mapGet sampleListed.Funcs "test_job"
        = some { ID := 1, Name := "test_job", Description := "", Spec := "@every 1s",
                 Func := none, Timeout := 0, UpdatedAt := 10 } ∧
      mapKeys (encodeNamedFunc
          ({ ID := 1, Name := "test_job", Description := "", Spec := "@every 1s",
             Func := none, Timeout := 0, UpdatedAt := 10 } : NamedFunc Nat))
        = ["id", "name", "description", "spec", "timeout", "updatedAt"] :=
  ⟨by decide,
    (snapshot_entry_fields sampleRank sampleListed "test_job"
      { ID := 1, Name := "test_job", Description := "", Spec := "@every 1s",
        Func := none, Timeout := 0, UpdatedAt := 10 } (by decide)).2.2.1⟩

/-- C16: `String()` does not produce the view of `MarshalJSON`.  For the
scheduler of `TestListScheduler` both documents have the members `name` and
`funcs`, but in the document of `String()` the member `funcs` is an object
keyed by the job name `test_job`, while in the document of `MarshalJSON` it is
a list of job entries. -/
theorem String_renders_funcs_keyed_by_name (rank : String → Nat) :
    mapKeys sampleListed.String = ["name", "funcs"] ∧
      mapKeys (MarshalJSON rank sampleListed) = ["name", "funcs"] ∧
      mapGet sampleListed.String "funcs"
        = some (JsonValue.object
            [("test_job",
              [("id", JsonScalar.num 1), ("name", JsonScalar.str "test_job"),
               ("description", JsonScalar.str ""), ("spec", JsonScalar.str "@every 1s"),
               ("timeout", JsonScalar.num 0), ("updatedAt", JsonScalar.time 10)])]) ∧
      mapGet (MarshalJSON rank sampleListed) "funcs"
        = some (JsonValue.array
            [[("id", JsonScalar.num 1), ("name", JsonScalar.str "test_job"),
              ("description", JsonScalar.str ""), ("spec", JsonScalar.str "@every 1s"),
              ("timeout", JsonScalar.num 0), ("updatedAt", JsonScalar.time 10)]]) ∧
      sampleListed.String ≠ MarshalJSON rank sampleListed := by
  have hlist : ListFuncs rank sampleListed
      = [{ ID := 1, Name := "test_job", Description := "", Spec := "@every 1s", Func := none,
           Timeout := 0, UpdatedAt := 10 }] := by
    simp [ListFuncs, sampleListed, RegisterFunc, NewDynamicScheduler, mapGet, mapSet,
      Engine.AddFunc, Engine.new, sampleValid, wrapFunction]
  have hjson : MarshalJSON rank sampleListed
      = [("name", JsonValue.scalar (JsonScalar.str "TestScheduler")),
         ("funcs", JsonValue.array
            [[("id", JsonScalar.num 1), ("name", JsonScalar.str "test_job"),
              ("description", JsonScalar.str ""), ("spec", JsonScalar.str "@every 1s"),
              ("timeout", JsonScalar.num 0), ("updatedAt", JsonScalar.time 10)]])] := by
    rw [MarshalJSON_eq, hlist]
    simp [encodeNamedFunc_eq]
    decide
  rw [hjson]
  decide

end Cron
